import Mathlib

/-!
Verification model of `bitbucket-aws-sg-whitelister.py`.

The script reconciles an AWS security group's port-443 ingress rules with the
Bitbucket IPv4 egress CIDR feed.  We embed the script shallowly:

* `Net` models a parsed IPv4 CIDR block (Python `ipaddress.IPv4Network`):
  base address and prefix length, both as `Nat`.
* `parseCidr` models `ipaddress.ip_network(s)` with the default `strict=True`
  (host bits set is an error).  It works on `String.data` so that the kernel
  can evaluate it.  The exotic `addr/netmask` and `addr/hostmask` spellings of
  CPython are not modelled; the feed and AWS only produce `a.b.c.d/p` forms.
* `collapseAddresses` models CPython's `ipaddress.collapse_addresses` for a
  list of networks, following the CPython source: /32 networks are turned into
  addresses, dedup-sorted, grouped into consecutive ranges and re-summarised
  (`summarize_address_range`); the remaining networks go through the
  sibling-merge loop of `_collapse_addresses_internal` (a dict keyed by the
  supernet of each entry), then the values are sorted and subsumed subnets are
  skipped.  Recursions that are not structural use explicit fuel with the fuel
  chosen from a decreasing measure, so everything evaluates by `decide`/`rfl`.
* The run itself (`mainRun`) is modelled as a pure function from the feed
  data, the security-group state and the environment configuration to a
  `RunResult`: the trace of external mutation/notification calls, the process
  exit status, and a tag for the branch the run terminated in.
  Python stable `sorted` is modelled with the stable `List.insertionSort`.
-/

/-- An IPv4 CIDR block as the script's parsed `ip_network` values: base
address and prefix length. -/
@[ext]
structure Net where
  addr : Nat
  plen : Nat
deriving DecidableEq, Repr

/-- Number of addresses covered by the block. -/
def Net.size (n : Net) : Nat := 2 ^ (32 - n.plen)

/-- Well-formedness of a parsed network: prefix in range, address in range,
and no host bits set (what `ip_network(..., strict=True)` guarantees). -/
def Net.Valid (n : Net) : Prop := n.plen ≤ 32 ∧ n.addr < 2 ^ 32 ∧ n.addr % n.size = 0

instance (n : Net) : Decidable n.Valid := by
  unfold Net.Valid
  infer_instance

/-- Highest address of the block (`broadcast_address` in CPython). -/
def Net.broadcast (n : Net) : Nat := n.addr + n.size - 1

/-- Addresses covered by the block. -/
def Net.addrSet (n : Net) : Set Nat := Set.Ico n.addr (n.addr + n.size)

/-- Addresses covered by a list of blocks. -/
def coverage (l : List Net) : Set Nat := {x | ∃ n ∈ l, x ∈ n.addrSet}

/-- Strict comparison by (base address, prefix length), the order CPython uses
both for `IPv4Network.__lt__` (address, then netmask) and for the script's
explicit sort key `(c.network_address, c.prefixlen)` on line 51. -/
def netLT (a b : Net) : Prop := a.addr < b.addr ∨ (a.addr = b.addr ∧ a.plen < b.plen)

/-- Reflexive closure of `netLT`. -/
def netLE (a b : Net) : Prop := a.addr < b.addr ∨ (a.addr = b.addr ∧ a.plen ≤ b.plen)

instance (a b : Net) : Decidable (netLT a b) := by
  unfold netLT
  infer_instance

instance (a b : Net) : Decidable (netLE a b) := by
  unfold netLE
  infer_instance

/-- `IPv4Network.supernet()` with the default `prefixlen_diff=1`: the parent
block.  CPython returns the network itself when the prefix length is 0. -/
def Net.supernet (n : Net) : Net :=
  if n.plen = 0 then n else ⟨n.addr - n.addr % 2 ^ (32 - (n.plen - 1)), n.plen - 1⟩

/-- Fuelled count of trailing zero bits. -/
def tzF : Nat → Nat → Nat
  | 0, _ => 0
  | fuel + 1, x => if x % 2 = 0 ∧ x ≠ 0 then tzF fuel (x / 2) + 1 else 0

/-- Count of trailing zero bits of `x` (0 for `x = 0`); fuel `x` suffices
because the argument at least halves at every step. -/
def tz (x : Nat) : Nat := tzF x x

/-- CPython `_count_righthand_zero_bits(number, 32)`:
`bits` when the number is 0, else trailing zeros capped at `bits`. -/
def ctz32 (x : Nat) : Nat := if x = 0 then 32 else min 32 (tz x)

/-- Fuelled base-2 logarithm. -/
def log2F : Nat → Nat → Nat
  | 0, _ => 0
  | fuel + 1, n => if 2 ≤ n then log2F fuel (n / 2) + 1 else 0

/-- Floor base-2 logarithm; equals Python `n.bit_length() - 1` for `n ≥ 1`. -/
def nlog2 (n : Nat) : Nat := log2F n n

/-- One step list of CPython `summarize_address_range(first, last)` with fuel:
emit the largest aligned block starting at `first` that fits in the range,
then continue past it; stop early when the block ends at the all-ones
address. -/
def summarizeF : Nat → Nat → Nat → List Net
  | 0, _, _ => []
  | fuel + 1, first, last =>
    if first ≤ last then
      let nbits := min (ctz32 first) (nlog2 (last - first + 1))
      let net : Net := ⟨first, 32 - nbits⟩
      if first + 2 ^ nbits - 1 = 2 ^ 32 - 1 then [net]
      else net :: summarizeF fuel (first + 2 ^ nbits) last
    else []

/-- CPython `summarize_address_range(first, last)` for IPv4 addresses; fuel
`last + 1 - first` suffices because `first` strictly increases. -/
def summarize (first last : Nat) : List Net := summarizeF (last + 1 - first) first last

/-- Inner loop of CPython `_find_address_range`: extend the current run of
consecutive addresses or flush it. -/
def findRangesGo (first last : Nat) : List Nat → List (Nat × Nat)
  | [] => [(first, last)]
  | x :: rest =>
    if x = last + 1 then findRangesGo first x rest
    else (first, last) :: findRangesGo x x rest

/-- CPython `_find_address_range` over a sorted deduplicated address list:
maximal runs of consecutive addresses as (first, last) pairs. -/
def findRanges : List Nat → List (Nat × Nat)
  | [] => []
  | x :: rest => findRangesGo x x rest

/-- Association-list lookup, modelling `subnets.get(supernet)` on the dict in
`_collapse_addresses_internal` (keys are kept unique). -/
def lookupA (k : Net) (s : List (Net × Net)) : Option Net :=
  (s.find? (fun e => decide (e.1 = k))).map (fun e => e.2)

/-- Association-list key removal, modelling `del subnets[supernet]`. -/
def eraseA (k : Net) (s : List (Net × Net)) : List (Net × Net) :=
  s.filter (fun e => ! decide (e.1 = k))

/-- Weight used for the merge-loop fuel. -/
def netW (n : Net) : Nat := 4 ^ n.plen

/-- Total weight of a list of networks. -/
def sumW (l : List Net) : Nat := (l.map netW).sum

/-- Fuel bound for `mergeLoopF`: strictly decreases at every loop step. -/
def loopMeasure (tm : List Net) (s : List (Net × Net)) : Nat :=
  2 * sumW tm + sumW (s.map Prod.snd)

/-- The merge loop of CPython `_collapse_addresses_internal` with fuel.
`tm` is the `to_merge` stack (head = Python's list tail, where `pop` and
`append` operate); `s` is the `subnets` dict as an insertion-ordered
association list keyed by the supernet of the stored network. -/
def mergeLoopF : Nat → List Net → List (Net × Net) → List (Net × Net)
  | _, [], s => s
  | 0, _ :: _, s => s
  | fuel + 1, net :: rest, s =>
    let sup := net.supernet
    match lookupA sup s with
    | none => mergeLoopF fuel rest (s ++ [(sup, net)])
    | some existing =>
      if existing = net then mergeLoopF fuel rest s
      else mergeLoopF fuel (sup :: rest) (eraseA sup s)

/-- The merge loop run to completion: `loopMeasure` fuel suffices because the
measure strictly decreases at every step. -/
def mergeLoop (tm : List Net) (s : List (Net × Net)) : List (Net × Net) :=
  mergeLoopF (loopMeasure tm s) tm s

/-- Stable sort by (base address, prefix length); models CPython's stable
`sorted` under `IPv4Network` ordering and under the script's explicit
`(network_address, prefixlen)` key, which agree. -/
def sortNets (l : List Net) : List Net := List.insertionSort netLE l

/-- The subsumption filter at the end of `_collapse_addresses_internal`:
walking the sorted list, skip any network whose broadcast address does not
exceed that of the last emitted network. -/
def filterGo : Option Net → List Net → List Net
  | _, [] => []
  | none, n :: rest => n :: filterGo (some n) rest
  | some last, n :: rest =>
    if n.broadcast ≤ last.broadcast then filterGo (some last) rest
    else n :: filterGo (some n) rest

/-- CPython `_collapse_addresses_internal`: run the merge loop (Python pops
from the end of `to_merge`, hence the `reverse`), sort the dict values, drop
subsumed subnets. -/
def collapseInternal (l : List Net) : List Net :=
  filterGo none (sortNets ((mergeLoop l.reverse []).map Prod.snd))

/-- CPython `collapse_addresses` restricted to network arguments (the only
shape the script passes): /32 networks become bare addresses which are
dedup-sorted, grouped into consecutive runs and summarised back into blocks;
the rest go to the internal merge. -/
def collapseAddresses (l : List Net) : List Net :=
  let ips := (l.filter (fun n => decide (n.plen = 32))).map Net.addr
  let nets := l.filter (fun n => decide (¬ n.plen = 32))
  let sortedIps := List.insertionSort (fun a b => a ≤ b) ips.dedup
  let addrs := (findRanges sortedIps).map (fun p => summarize p.1 p.2)
  collapseInternal (addrs.flatten ++ nets)

/-- Is `c` a decimal digit; mirrors the character test of CPython
`_parse_octet`. -/
def isDig (c : Char) : Bool := c.isDigit

/-- Value of a digit string. -/
def digitsToNat (l : List Char) : Nat :=
  l.foldl (fun acc c => acc * 10 + (c.toNat - '0'.toNat)) 0

/-- CPython `_parse_octet`: 1–3 characters, all digits, no leading zero,
value at most 255. -/
def parseOctet (l : List Char) : Option Nat :=
  if l.length = 0 ∨ 3 < l.length then none
  else if ¬ l.all isDig then none
  else if 1 < l.length ∧ l.head? = some '0' then none
  else if 255 < digitsToNat l then none
  else some (digitsToNat l)

/-- Split a character list on a separator character (Python `str.split`). -/
def splitOnChar (sep : Char) : List Char → List (List Char)
  | [] => [[]]
  | c :: rest =>
    let r := splitOnChar sep rest
    if c = sep then [] :: r
    else
      match r with
      | [] => [[c]]
      | h :: t => (c :: h) :: t

/-- Parse a dotted-quad IPv4 address to its numeric value. -/
def parseIPv4Addr (l : List Char) : Option Nat :=
  match splitOnChar '.' l with
  | [a, b, c, d] => do
    let va ← parseOctet a
    let vb ← parseOctet b
    let vc ← parseOctet c
    let vd ← parseOctet d
    pure (((va * 256 + vb) * 256 + vc) * 256 + vd)
  | _ => none

/-- CPython `_prefix_from_prefix_string`: nonempty digit string with value at
most 32 (leading zeros are accepted there). -/
def parsePlen (l : List Char) : Option Nat :=
  if l.length = 0 then none
  else if ¬ l.all isDig then none
  else if 32 < digitsToNat l then none
  else some (digitsToNat l)

/-- `ipaddress.ip_network(s)` with default `strict=True` for IPv4 text input:
optional `/plen` (default 32), and host bits set make the call fail. -/
def parseCidr (s : String) : Option Net :=
  match splitOnChar '/' s.data with
  | [a] => (parseIPv4Addr a).map (fun addr => ⟨addr, 32⟩)
  | [a, p] => do
    let addr ← parseIPv4Addr a
    let pl ← parsePlen p
    if addr % 2 ^ (32 - pl) = 0 then some (⟨addr, pl⟩ : Net) else none
  | _ => none

/-- `str(c)` for an `IPv4Network`: dotted quad, slash, prefix length. -/
def netToString (n : Net) : String :=
  toString (n.addr / 2 ^ 24 % 256) ++ "." ++ toString (n.addr / 2 ^ 16 % 256) ++ "." ++
    toString (n.addr / 2 ^ 8 % 256) ++ "." ++ toString (n.addr % 256) ++ "/" ++ toString n.plen

/-- Lines 49–51 of the script: parse every filtered CIDR string (any parse
failure fails the whole call, as the list comprehension does), collapse, then
sort by `(network_address, prefixlen)` and render back to strings. -/
def collapseCidrs (cidrs : List String) : Option (List String) :=
  (cidrs.mapM parseCidr).map (fun objs => (sortNets (collapseAddresses objs)).map netToString)

/-- A raw feed entry (`item` in the script): each field may be absent.
`item.get` supplies the defaults; `item["cidr"]` raises when absent. -/
structure FeedItem where
  cidr : Option String
  product : Option (List String)
  direction : Option (List String)
deriving DecidableEq

/-- The filter conditions on lines 44–46: product tags contain "bitbucket",
direction tags contain "egress", and the CIDR string (defaulted to "")
contains no ':' (IPv6 separator). -/
def matchesFilter (it : FeedItem) : Bool :=
  (it.product.getD []).contains "bitbucket" &&
    (it.direction.getD []).contains "egress" &&
    ! (it.cidr.getD "").data.contains ':'

/-- How a run of `extract_bitbucket_egress_ipv4` can fail: `KeyError` from
`item["cidr"]` on a matching entry without a cidr field, or `ValueError` from
`ip_network` on a malformed CIDR string. -/
inductive ExtractErr
  | keyError
  | valueError
deriving DecidableEq

/-- The list comprehension on lines 41–47: keep the cidr strings of matching
items in input order; a matching item without a cidr field raises. -/
def feedFilterCidrs : List FeedItem → Except ExtractErr (List String)
  | [] => .ok []
  | it :: rest =>
    if matchesFilter it then
      match it.cidr with
      | none => .error .keyError
      | some c => (feedFilterCidrs rest).map (fun l => c :: l)
    else feedFilterCidrs rest

/-- `extract_bitbucket_egress_ipv4`: filter, then parse-and-collapse; returns
the pre-collapse strings and the collapsed sorted strings. -/
def extract_bitbucket_egress_ipv4 (data : List FeedItem) :
    Except ExtractErr (List String × List String) :=
  match feedFilterCidrs data with
  | .error e => .error e
  | .ok cidrs =>
    match collapseCidrs cidrs with
    | none => .error .valueError
    | some after => .ok (cidrs, after)

/-- One entry of `IpPermissions` as read from AWS (lines 61–63): protocol,
`FromPort`, and the `CidrIp` strings of its `IpRanges`. -/
structure SgPerm where
  ipProtocol : Option String
  fromPort : Option Nat
  ipRanges : List String
deriving DecidableEq

/-- Line 62–63: an `IpPermissions` entry contributes its ranges iff its
protocol is "tcp" and its `FromPort` is 443. -/
def permRules (p : SgPerm) : List String :=
  if p.ipProtocol = some "tcp" ∧ p.fromPort = some 443 then p.ipRanges else []

/-- Key order for the decorate-sort-undecorate modelling of Python `sorted`
with a key function. -/
def pairLE (a b : Net × String) : Prop := netLE a.1 b.1

instance (a b : Net × String) : Decidable (pairLE a b) := by
  unfold pairLE
  infer_instance

/-- Line 64: `sorted(rules, key=ipaddress.ip_network)` — decorate each string
with its parsed network (failure anywhere fails the whole call), stable-sort
by the key, undecorate. -/
def sortByNetKey (rules : List String) : Option (List String) :=
  (rules.mapM (fun s => (parseCidr s).map (fun n => ((n, s) : Net × String)))).map
    (fun ps => (List.insertionSort pairLE ps).map Prod.snd)

/-- `get_sg_ingress_rules`: collect the matching ranges of every permission
entry, sorted by parsed network. -/
def get_sg_ingress_rules (perms : List SgPerm) : Option (List String) :=
  sortByNetKey ((perms.map permRules).flatten)

/-- Line 79: `to_add = desired - current` on Python sets of strings. -/
def to_add (after current : List String) : Finset String :=
  after.toFinset \ current.toFinset

/-- Line 80: `to_remove = current - desired` on Python sets of strings. -/
def to_remove (after current : List String) : Finset String :=
  current.toFinset \ after.toFinset

/-- Payload of one batched mutation request (one element of `IpPermissions`
in the boto3 call); the rule descriptions are not modelled. -/
structure MutPayload where
  ipProtocol : String
  fromPort : Nat
  toPort : Nat
  ranges : Finset String
deriving DecidableEq

/-- Alert text is modelled by the data interpolated into it. -/
inductive Msg
  | limitAlert (count : Nat)
  | successNote (count : Nat)
deriving DecidableEq

/-- Externally visible calls made by a run: the two mutation calls and an
invocation of `send_slack_alert`. -/
inductive Event
  | revokeCall (p : MutPayload)
  | authorizeCall (p : MutPayload)
  | slackCall (m : Msg)
deriving DecidableEq

/-- Constant from line 13. -/
def AWS_SG_RULE_LIMIT : Nat := 60

/-- Constant from line 14. -/
def AWS_SG_RULE_PORT : Nat := 443

/-- `replace_sg_ingress_rules` (lines 67–116): compute the set diff; if empty
return with no calls; otherwise issue one batched revoke for the stale rules
and one batched authorize for the new rules (each only outside dry-run), and
in dry-run stop the process via the bare `sys.exit()` — status 0.  Returns
the emitted calls and `some code` when the function exited the process. -/
def replace_sg_ingress_rules (dryRun : Bool) (after current : List String) :
    List Event × Option Nat :=
  let ta := to_add after current
  let tr := to_remove after current
  if ta = ∅ ∧ tr = ∅ then ([], none)
  else
    let ev1 : List Event :=
      if tr ≠ ∅ ∧ dryRun = false then
        [.revokeCall ⟨"tcp", AWS_SG_RULE_PORT, AWS_SG_RULE_PORT, tr⟩] else []
    let ev2 : List Event :=
      if ta ≠ ∅ ∧ dryRun = false then
        [.authorizeCall ⟨"tcp", AWS_SG_RULE_PORT, AWS_SG_RULE_PORT, ta⟩] else []
    (ev1 ++ ev2, if dryRun then some 0 else none)

/-- Result of the Slack HTTP roundtrip, as far as `send_slack_alert` can
observe it: the request raised, or returned a body whose "ok" field is as
given. -/
inductive SlackApi
  | exn
  | resp (ok : Bool)
deriving DecidableEq

/-- How a call of `send_slack_alert` ends. -/
inductive SlackOutcome
  | exited (code : Nat)
  | sent
  | loggedFailure
deriving DecidableEq

/-- `send_slack_alert` (lines 119–146): with no token it calls `sys.exit(1)`;
with a token, a raising request or a non-ok body is caught and only logged,
and the function returns normally. -/
def send_slack_alert (token : Option String) (api : SlackApi) (_msg : Msg) : SlackOutcome :=
  match token with
  | none => .exited 1
  | some _ =>
    match api with
    | .exn => .loggedFailure
    | .resp ok => if ok then .sent else .loggedFailure

/-- Environment configuration of one run. -/
structure Config where
  dryRun : Bool
  slackToken : Option String
  slackApi : SlackApi
deriving DecidableEq

/-- Which terminal branch of `main` a run reached. -/
inductive Outcome
  | noChange
  | limitExceeded
  | dryRunStop
  | applied
  | crashed
deriving DecidableEq

/-- Observable result of one run: external calls in order, process exit
status, and the terminal branch. -/
structure RunResult where
  trace : List Event
  exitCode : Nat
  outcome : Outcome
deriving DecidableEq

/-- Lines 175–204 of `main`, after the desired and current lists are known:
early return when the lists are equal; the rule-limit gate with its alert and
`sys.exit(1)`; the incremental update; the success alert.  A `sys.exit(1)`
inside `send_slack_alert` (missing token) yields the same status 1 in the
limit branch, and status 1 instead of 0 on the success path. -/
def mainCore (cfg : Config) (after current : List String) : RunResult :=
  if after = current then ⟨[], 0, .noChange⟩
  else if AWS_SG_RULE_LIMIT < after.length then
    if cfg.dryRun then ⟨[], 1, .limitExceeded⟩
    else ⟨[.slackCall (.limitAlert after.length)], 1, .limitExceeded⟩
  else
    match replace_sg_ingress_rules cfg.dryRun after current with
    | (ev, some code) => ⟨ev, code, .dryRunStop⟩
    | (ev, none) =>
      match send_slack_alert cfg.slackToken cfg.slackApi (.successNote after.length) with
      | .exited c => ⟨ev ++ [.slackCall (.successNote after.length)], c, .applied⟩
      | _ => ⟨ev ++ [.slackCall (.successNote after.length)], 0, .applied⟩

/-- `main` from the security-group read on: an unparseable current rule makes
the `sorted` key raise and the run die; otherwise continue with `mainCore`. -/
def mainFromAfter (cfg : Config) (after : List String) (perms : List SgPerm) : RunResult :=
  match get_sg_ingress_rules perms with
  | none => ⟨[], 1, .crashed⟩
  | some current => mainCore cfg after current

/-- The whole run of `main`: fetch errors aside (not modelled), extract the
desired set — a `KeyError`/`ValueError` there kills the process before any
AWS call — then reconcile. -/
def mainRun (cfg : Config) (data : List FeedItem) (perms : List SgPerm) : RunResult :=
  match extract_bitbucket_egress_ipv4 data with
  | .error _ => ⟨[], 1, .crashed⟩
  | .ok (_, after) => mainFromAfter cfg after perms

/-- Is the event a firewall mutation call. -/
def isMutation : Event → Bool
  | .revokeCall _ => true
  | .authorizeCall _ => true
  | .slackCall _ => false

/-- Is the event a Notifier invocation. -/
def isSlack : Event → Bool
  | .slackCall _ => true
  | _ => false

/-- Strict order on CIDR strings through their parses; false when either side
does not parse. -/
def keyLT (a b : String) : Prop :=
  match parseCidr a, parseCidr b with
  | some x, some y => netLT x y
  | _, _ => False

instance (a b : String) : Decidable (keyLT a b) := by
  unfold keyLT
  rcases parseCidr a with _ | x
  · exact isFalse (fun h => h)
  · rcases parseCidr b with _ | y
    · exact isFalse (fun h => h)
    · exact inferInstanceAs (Decidable (netLT x y))

/-- The parsed network of a CIDR string, defaulting arbitrarily when the
string does not parse (only used under a parse-success hypothesis). -/
def parseKey (s : String) : Net := (parseCidr s).getD ⟨0, 32⟩

/-- Pairwise disjointness of the blocks of a finite set of networks. -/
def PairDisj (S : Finset Net) : Prop :=
  ∀ a ∈ S, ∀ b ∈ S, a ≠ b → Disjoint a.addrSet b.addrSet

/-- No two distinct members share a supernet.  The merge-loop dict satisfies
this by construction because it is keyed by the supernet of each value. -/
def SibFree (S : Finset Net) : Prop :=
  ∀ a ∈ S, ∀ b ∈ S, a.supernet = b.supernet → a = b

/-- Coverage of a finite set of blocks. -/
def netCoverage (S : Finset Net) : Set Nat := {x | ∃ n ∈ S, x ∈ n.addrSet}

/-- Invariant of the merge-loop dict: keys are unique, and each stored
network is valid and keyed by its supernet. -/
def DictInvL (s : List (Net × Net)) : Prop :=
  (s.map Prod.fst).Nodup ∧ ∀ e ∈ s, (e.2 : Net).supernet = e.1 ∧ (e.2 : Net).Valid

/-- The other half of a valid block's parent: the block of the same size
adjacent on the right when the block is the lower half, on the left when it
is the upper half. -/
def Net.sibling (n : Net) : Net :=
  if n.addr % (2 * n.size) = 0 then ⟨n.addr + n.size, n.plen⟩ else ⟨n.addr - n.size, n.plen⟩

instance : IsTotal Net netLE where
  total := by
    intro a b
    unfold netLE
    rcases Nat.lt_trichotomy a.addr b.addr with h | h | h
    · exact Or.inl (Or.inl h)
    · rcases Nat.le_total a.plen b.plen with h2 | h2
      · exact Or.inl (Or.inr ⟨h, h2⟩)
      · exact Or.inr (Or.inr ⟨h.symm, h2⟩)
    · exact Or.inr (Or.inl h)

instance : IsTrans Net netLE where
  trans := by
    intro a b c hab hbc
    unfold netLE at *
    rcases hab with h1 | ⟨e1, p1⟩
    · rcases hbc with h2 | ⟨e2, p2⟩
      · exact Or.inl (h1.trans h2)
      · exact Or.inl (e2 ▸ h1)
    · rcases hbc with h2 | ⟨e2, p2⟩
      · exact Or.inl (e1 ▸ h2)
      · exact Or.inr ⟨e1.trans e2, p1.trans p2⟩

instance : IsTotal (Net × String) pairLE where
  total := fun a b => IsTotal.total (r := netLE) a.1 b.1

instance : IsTrans (Net × String) pairLE where
  trans := fun _ _ _ hab hbc => IsTrans.trans (r := netLE) _ _ _ hab hbc

instance : IsTotal Nat (fun a b => a ≤ b) where
  total := Nat.le_total

instance : IsTrans Nat (fun a b => a ≤ b) where
  trans := fun _ _ _ h h2 => Nat.le_trans h h2

instance {ε α : Type} [DecidableEq ε] [DecidableEq α] : DecidableEq (Except ε α) := fun a b =>
  match a, b with
  | .error e, .error f =>
    if h : e = f then isTrue (congrArg Except.error h)
    else isFalse (fun hh => h (Except.error.inj hh))
  | .error _, .ok _ => isFalse (fun hh => Except.noConfusion hh)
  | .ok _, .error _ => isFalse (fun hh => Except.noConfusion hh)
  | .ok x, .ok y =>
    if h : x = y then isTrue (congrArg Except.ok h)
    else isFalse (fun hh => h (Except.ok.inj hh))

-- Sanity checks of the executable model (CPython reference behaviour).
example : parseCidr "10.0.0.0/24" = some ⟨10 * 2 ^ 24, 24⟩ := by decide
example : parseCidr "10.0.0.1/24" = none := by decide
example : parseCidr "10.0.0.256" = none := by decide
example : netToString ⟨10 * 2 ^ 24, 24⟩ = "10.0.0.0/24" := by decide
example : collapseCidrs ["10.0.0.0/24", "10.0.1.0/24"] = some ["10.0.0.0/23"] := by decide
example : collapseCidrs ["10.0.0.4/32", "10.0.0.5/32"] = some ["10.0.0.4/31"] := by decide
example : collapseCidrs ["10.0.0.0/24", "10.0.0.0/25"] = some ["10.0.0.0/24"] := by decide

/-! ## Helper lemmas about the run model -/

theorem replace_eq_of_empty (d : Bool) (after current : List String)
    (h : to_add after current = ∅ ∧ to_remove after current = ∅) :
    replace_sg_ingress_rules d after current = ([], none) := by
  unfold replace_sg_ingress_rules
  rw [if_pos h]

theorem replace_eq_of_nonempty (d : Bool) (after current : List String)
    (h : ¬(to_add after current = ∅ ∧ to_remove after current = ∅)) :
    replace_sg_ingress_rules d after current =
      ((if to_remove after current ≠ ∅ ∧ d = false then
          [.revokeCall ⟨"tcp", AWS_SG_RULE_PORT, AWS_SG_RULE_PORT, to_remove after current⟩]
        else []) ++
        (if to_add after current ≠ ∅ ∧ d = false then
          [.authorizeCall ⟨"tcp", AWS_SG_RULE_PORT, AWS_SG_RULE_PORT, to_add after current⟩]
        else []),
        if d then some 0 else none) := by
  unfold replace_sg_ingress_rules
  rw [if_neg h]

theorem diff_empty_of_eq (l : List String) :
    to_add l l = ∅ ∧ to_remove l l = ∅ :=
  ⟨Finset.sdiff_self _, Finset.sdiff_self _⟩

theorem slack_some_cases (t : String) (api : SlackApi) (msg : Msg) :
    send_slack_alert (some t) api msg = .sent ∨
      send_slack_alert (some t) api msg = .loggedFailure := by
  cases api with
  | exn => exact Or.inr rfl
  | resp ok =>
    cases ok
    · exact Or.inr rfl
    · exact Or.inl rfl

theorem ne_of_diff_nonempty (after current : List String)
    (h : ¬(to_add after current = ∅ ∧ to_remove after current = ∅)) :
    after ≠ current := by
  intro heq
  subst heq
  exact h (diff_empty_of_eq after)

/-! ## C1 — diff correctness -/

/-- C1: for every desired list D and current list C, the diff of the update
step satisfies `toAdd = D \ C`, `toRemove = C \ D`, the two are disjoint, and
`(C \ toRemove) ∪ toAdd = D` as sets of CIDR strings. -/
theorem c1_diff_correctness (D C : List String) :
    to_add D C = D.toFinset \ C.toFinset ∧
    to_remove D C = C.toFinset \ D.toFinset ∧
    Disjoint (to_add D C) (to_remove D C) ∧
    (C.toFinset \ to_remove D C) ∪ to_add D C = D.toFinset := by
  refine ⟨rfl, rfl, ?_, ?_⟩
  · exact disjoint_sdiff_sdiff
  · unfold to_add to_remove
    rw [Finset.sdiff_sdiff_self_left]
    ext x
    simp only [Finset.mem_union, Finset.mem_inter, Finset.mem_sdiff]
    tauto

/-! ## C2 — the rule-limit safety gate -/

/-- C2: when the collapsed desired list exceeds the 60-rule limit and differs
from the current list, the run issues no mutation call at all, exits with
status 1, and invokes the Slack alert exactly once — unless dry-run is set,
in which case the alert is skipped and the status is still 1. -/
theorem c2_limit_gate (cfg : Config) (after current : List String)
    (hlim : AWS_SG_RULE_LIMIT < after.length) (hne : after ≠ current) :
    (∀ e ∈ (mainCore cfg after current).trace, isMutation e = false) ∧
    (mainCore cfg after current).exitCode = 1 ∧
    (mainCore cfg after current).outcome = .limitExceeded ∧
    (mainCore cfg after current).trace.filter isSlack =
      (if cfg.dryRun then [] else [.slackCall (.limitAlert after.length)]) := by
  unfold mainCore
  rw [if_neg hne, if_pos hlim]
  cases h : cfg.dryRun <;> simp [isMutation, isSlack]

/-- Witness for C2 at a concrete input: 61 desired entries, an empty current
rule list, dry-run off. -/
theorem c2_limit_gate_witness :
    (AWS_SG_RULE_LIMIT < (List.replicate 61 "x").length ∧
      List.replicate 61 "x" ≠ ([] : List String)) ∧
    ((∀ e ∈ (mainCore ⟨false, some "tok", .resp true⟩ (List.replicate 61 "x") []).trace,
        isMutation e = false) ∧
      (mainCore ⟨false, some "tok", .resp true⟩ (List.replicate 61 "x") []).exitCode = 1 ∧
      (mainCore ⟨false, some "tok", .resp true⟩ (List.replicate 61 "x") []).outcome =
        .limitExceeded ∧
      (mainCore ⟨false, some "tok", .resp true⟩ (List.replicate 61 "x") []).trace.filter isSlack =
        (if (false : Bool) then [] else [.slackCall (.limitAlert (List.replicate 61 "x").length)])) :=
  ⟨⟨by decide, by decide⟩,
    c2_limit_gate ⟨false, some "tok", .resp true⟩ (List.replicate 61 "x") [] (by decide) (by decide)⟩

/-! ## C4 — dry-run exit status (corrected) -/

/-- C4 counterexample: with the dry-run flag set and a non-empty diff the run
makes no mutation call, but terminates through the bare `sys.exit()` on line
116, whose exit status is 0 — not the claimed non-zero status. -/
theorem c4_dry_run_counterexample :
    to_add ["10.0.0.0/24"] [] ≠ ∅ ∧
    mainCore ⟨true, some "tok", .resp true⟩ ["10.0.0.0/24"] [] =
      ⟨[], 0, .dryRunStop⟩ := by
  constructor
  · decide
  · decide

/-- C4 amended: when the dry-run flag is set and the computed diff is
non-empty (and the limit gate does not fire), the run completes with no
mutation call and terminates via the bare `sys.exit()` with exit status 0 —
the same status as a successful or no-change run, not a distinct non-zero
status. -/
theorem c4_dry_run_amended (cfg : Config) (after current : List String)
    (hdry : cfg.dryRun = true) (hlim : after.length ≤ AWS_SG_RULE_LIMIT)
    (hdiff : ¬(to_add after current = ∅ ∧ to_remove after current = ∅)) :
    mainCore cfg after current = ⟨[], 0, .dryRunStop⟩ := by
  have hne : after ≠ current := ne_of_diff_nonempty after current hdiff
  unfold mainCore
  rw [if_neg hne, if_neg (not_lt.mpr hlim), replace_eq_of_nonempty cfg.dryRun after current hdiff]
  simp [hdry]

/-- Witness for C4's amended statement at a concrete input. -/
theorem c4_dry_run_amended_witness :
    ((true : Bool) = true ∧ (["10.0.0.0/24"] : List String).length ≤ AWS_SG_RULE_LIMIT ∧
      ¬(to_add ["10.0.0.0/24"] [] = ∅ ∧ to_remove ["10.0.0.0/24"] [] = ∅)) ∧
    mainCore ⟨true, none, .exn⟩ ["10.0.0.0/24"] [] = ⟨[], 0, .dryRunStop⟩ :=
  ⟨⟨rfl, by decide, by decide⟩,
    c4_dry_run_amended ⟨true, none, .exn⟩ ["10.0.0.0/24"] [] rfl (by decide) (by decide)⟩

/-! ## C5 — notifier failure handling (corrected) -/

/-- C5 counterexample: with the Slack token missing, `send_slack_alert` does
not log-and-return — it calls `sys.exit(1)` (lines 123–125), and on the
success path this turns the run's exit status into 1. -/
theorem c5_notify_counterexample :
    send_slack_alert none (.resp true) (.successNote 5) = .exited 1 ∧
    (mainCore ⟨false, none, .resp true⟩ ["10.0.0.0/24"] []).exitCode = 1 := by
  constructor
  · rfl
  · decide

/-- C5 amended: with a token configured, every notifier error — a raising
request or a non-ok API response — is caught, logged and swallowed for every
message, the call returns normally, and the run's exit status does not depend
on the API result; but with the token missing the notification step exits the
process with status 1 instead of returning. -/
theorem c5_notify_amended (t : String) (api : SlackApi) (msg : Msg) :
    (send_slack_alert (some t) api msg = .sent ∨
      send_slack_alert (some t) api msg = .loggedFailure) ∧
    send_slack_alert none api msg = .exited 1 ∧
    (∀ (dry : Bool) (after current : List String) (api2 : SlackApi),
      (mainCore ⟨dry, some t, api⟩ after current).exitCode =
        (mainCore ⟨dry, some t, api2⟩ after current).exitCode) := by
  refine ⟨slack_some_cases t api msg, rfl, ?_⟩
  intro dry after current api2
  unfold mainCore
  by_cases h1 : after = current
  · rw [if_pos h1, if_pos h1]
  · rw [if_neg h1, if_neg h1]
    by_cases h2 : AWS_SG_RULE_LIMIT < after.length
    · rw [if_pos h2, if_pos h2]
    · rw [if_neg h2, if_neg h2]
      rcases hr : replace_sg_ingress_rules dry after current with ⟨ev, exited⟩
      cases exited with
      | none =>
        rcases slack_some_cases t api (.successNote after.length) with hs1 | hs1 <;>
          rcases slack_some_cases t api2 (.successNote after.length) with hs2 | hs2 <;>
            rw [hs1, hs2]
      | some c => rfl

/-! ## C8 — ordered, batched mutation calls -/

/-- C8: applying a non-empty diff outside dry-run, the mutation calls of the
run are exactly one batched revoke carrying all of `toRemove` (when
non-empty) followed by one batched authorize carrying all of `toAdd` (when
non-empty) — never one call per CIDR, and never authorize before revoke. -/
theorem c8_batched_mutations (cfg : Config) (after current : List String)
    (hdry : cfg.dryRun = false) (hlim : after.length ≤ AWS_SG_RULE_LIMIT)
    (hdiff : ¬(to_add after current = ∅ ∧ to_remove after current = ∅)) :
    (mainCore cfg after current).trace.filter isMutation =
      (if to_remove after current = ∅ then []
        else [.revokeCall ⟨"tcp", AWS_SG_RULE_PORT, AWS_SG_RULE_PORT,
          to_remove after current⟩]) ++
      (if to_add after current = ∅ then []
        else [.authorizeCall ⟨"tcp", AWS_SG_RULE_PORT, AWS_SG_RULE_PORT,
          to_add after current⟩]) := by
  have hne := ne_of_diff_nonempty after current hdiff
  unfold mainCore
  rw [if_neg hne, if_neg (not_lt.mpr hlim),
    replace_eq_of_nonempty cfg.dryRun after current hdiff, hdry]
  cases hso : send_slack_alert cfg.slackToken cfg.slackApi (.successNote after.length) <;>
    by_cases h1 : to_remove after current = ∅ <;>
      by_cases h2 : to_add after current = ∅ <;>
        simp [hso, h1, h2, isMutation]

/-- Witness for C8 at a concrete input with one stale and one new rule. -/
theorem c8_batched_mutations_witness :
    ((false : Bool) = false ∧ (["10.0.0.0/24"] : List String).length ≤ AWS_SG_RULE_LIMIT ∧
      ¬(to_add ["10.0.0.0/24"] ["10.0.1.0/24"] = ∅ ∧
        to_remove ["10.0.0.0/24"] ["10.0.1.0/24"] = ∅)) ∧
    (mainCore ⟨false, some "tok", .resp true⟩ ["10.0.0.0/24"] ["10.0.1.0/24"]).trace.filter
        isMutation =
      (if to_remove ["10.0.0.0/24"] ["10.0.1.0/24"] = ∅ then []
        else [.revokeCall ⟨"tcp", AWS_SG_RULE_PORT, AWS_SG_RULE_PORT,
          to_remove ["10.0.0.0/24"] ["10.0.1.0/24"]⟩]) ++
      (if to_add ["10.0.0.0/24"] ["10.0.1.0/24"] = ∅ then []
        else [.authorizeCall ⟨"tcp", AWS_SG_RULE_PORT, AWS_SG_RULE_PORT,
          to_add ["10.0.0.0/24"] ["10.0.1.0/24"]⟩]) :=
  ⟨⟨rfl, by decide, by decide⟩,
    c8_batched_mutations ⟨false, some "tok", .resp true⟩ ["10.0.0.0/24"] ["10.0.1.0/24"]
      rfl (by decide) (by decide)⟩

/-! ## C9 — the feed filter (corrected) -/

/-- C9 counterexample: an entry whose product and direction tags match but
whose cidr field is missing is not treated as non-matching — the `item.get`
defaults make it pass the filter conditions, and `item["cidr"]` then raises a
`KeyError` that aborts the whole extraction. -/
theorem c9_feed_filter_counterexample :
    matchesFilter ⟨none, some ["bitbucket"], some ["egress"]⟩ = true ∧
    feedFilterCidrs [⟨none, some ["bitbucket"], some ["egress"]⟩] = .error .keyError := by
  constructor
  · decide
  · rfl

/-- C9 amended: the filter keeps an entry iff its product tags contain
"bitbucket", its direction tags contain "egress" and its (defaulted) CIDR
string has no ':'; output order follows input order; entries missing the
product or direction field are treated as non-matching; but an entry whose
tags match and whose cidr field is missing raises a `KeyError` instead of
being skipped. -/
theorem c9_feed_filter_amended (items : List FeedItem)
    (hc : ∀ it ∈ items, matchesFilter it = true → it.cidr.isSome = true) :
    feedFilterCidrs items = .ok ((items.filter matchesFilter).filterMap FeedItem.cidr) ∧
    (∀ it : FeedItem, it.product = none → matchesFilter it = false) ∧
    (∀ it : FeedItem, it.direction = none → matchesFilter it = false) ∧
    (∀ (it : FeedItem) (rest : List FeedItem), it.cidr = none → matchesFilter it = true →
      feedFilterCidrs (it :: rest) = .error .keyError) := by
  refine ⟨?_, ?_, ?_, ?_⟩
  · induction items with
    | nil => rfl
    | cons it rest ih =>
      by_cases hm : matchesFilter it = true
      · rcases Option.isSome_iff_exists.mp (hc it (List.mem_cons_self it rest) hm) with ⟨c, hcv⟩
        have ihr := ih (fun x hx h => hc x (List.mem_cons_of_mem it hx) h)
        simp [feedFilterCidrs, hm, hcv, ihr, Except.map, List.filter_cons, List.filterMap_cons]
      · have ihr := ih (fun x hx h => hc x (List.mem_cons_of_mem it hx) h)
        simp [feedFilterCidrs, hm, ihr, List.filter_cons]
  · intro it hp
    simp [matchesFilter, hp]
  · intro it hd
    simp [matchesFilter, hd]
  · intro it rest hcid hm
    simp [feedFilterCidrs, hm, hcid]

/-- Witness for C9's amended statement on a two-entry feed, one matching
entry with a cidr and one non-matching entry. -/
theorem c9_feed_filter_amended_witness :
    (∀ it ∈ [(⟨some "1.2.3.4/32", some ["bitbucket"], some ["egress"]⟩ : FeedItem),
        ⟨some "9.9.9.9/32", some ["jira"], some ["egress"]⟩],
      matchesFilter it = true → it.cidr.isSome = true) ∧
    feedFilterCidrs [(⟨some "1.2.3.4/32", some ["bitbucket"], some ["egress"]⟩ : FeedItem),
        ⟨some "9.9.9.9/32", some ["jira"], some ["egress"]⟩] =
      .ok (([(⟨some "1.2.3.4/32", some ["bitbucket"], some ["egress"]⟩ : FeedItem),
        ⟨some "9.9.9.9/32", some ["jira"], some ["egress"]⟩].filter
          matchesFilter).filterMap FeedItem.cidr) := by
  have hyp : ∀ it ∈ [(⟨some "1.2.3.4/32", some ["bitbucket"], some ["egress"]⟩ : FeedItem),
      ⟨some "9.9.9.9/32", some ["jira"], some ["egress"]⟩],
      matchesFilter it = true → it.cidr.isSome = true := by
    intro it hit
    rcases List.mem_cons.mp hit with rfl | hit2
    · decide
    · rcases List.mem_cons.mp hit2 with rfl | hit3
      · decide
      · cases hit3
  exact ⟨hyp,
    (c9_feed_filter_amended [⟨some "1.2.3.4/32", some ["bitbucket"], some ["egress"]⟩,
      ⟨some "9.9.9.9/32", some ["jira"], some ["egress"]⟩] hyp).1⟩

/-! ## C10 — fixed protocol and port on every mutation payload -/

theorem mainCore_trace_events (cfg : Config) (after current : List String) :
    ∀ e ∈ (mainCore cfg after current).trace,
      (∃ m, e = Event.slackCall m) ∨
      e = .revokeCall ⟨"tcp", AWS_SG_RULE_PORT, AWS_SG_RULE_PORT, to_remove after current⟩ ∨
      e = .authorizeCall ⟨"tcp", AWS_SG_RULE_PORT, AWS_SG_RULE_PORT, to_add after current⟩ := by
  intro e he
  unfold mainCore at he
  by_cases h1 : after = current
  · rw [if_pos h1] at he
    simp at he
  · rw [if_neg h1] at he
    by_cases h2 : AWS_SG_RULE_LIMIT < after.length
    · rw [if_pos h2] at he
      cases hd : cfg.dryRun <;> rw [hd] at he
      · simp at he
        exact Or.inl ⟨_, he⟩
      · simp at he
    · rw [if_neg h2] at he
      by_cases h3 : to_add after current = ∅ ∧ to_remove after current = ∅
      · rw [replace_eq_of_empty cfg.dryRun after current h3] at he
        cases hso : send_slack_alert cfg.slackToken cfg.slackApi (.successNote after.length) <;>
          · rw [hso] at he
            simp at he
            exact Or.inl ⟨_, he⟩
      · rw [replace_eq_of_nonempty cfg.dryRun after current h3] at he
        cases hd : cfg.dryRun <;> rw [hd] at he
        · cases hso : send_slack_alert cfg.slackToken cfg.slackApi (.successNote after.length) <;>
            · rw [hso] at he
              by_cases h4 : to_remove after current = ∅ <;>
                by_cases h5 : to_add after current = ∅ <;>
                  · simp [h4, h5] at he
                    aesop
        · by_cases h4 : to_remove after current = ∅ <;>
            by_cases h5 : to_add after current = ∅ <;>
              simp [h4, h5] at he

/-- C10: every firewall mutation payload the whole run ever constructs —
revoke or authorize — carries IpProtocol "tcp" and FromPort = ToPort = 443,
regardless of the feed data, the current rules and the configuration. -/
theorem c10_fixed_protocol_port (cfg : Config) (data : List FeedItem) (perms : List SgPerm)
    (p : MutPayload)
    (h : Event.revokeCall p ∈ (mainRun cfg data perms).trace ∨
      Event.authorizeCall p ∈ (mainRun cfg data perms).trace) :
    p.ipProtocol = "tcp" ∧ p.fromPort = 443 ∧ p.toPort = 443 := by
  unfold mainRun at h
  rcases hx : extract_bitbucket_egress_ipv4 data with e | pr
  · rw [hx] at h
    rcases h with h | h <;> simp at h
  · rw [hx] at h
    rcases pr with ⟨before, after⟩
    unfold mainFromAfter at h
    rcases hg : get_sg_ingress_rules perms with _ | current
    · rw [hg] at h
      rcases h with h | h <;> simp at h
    · rw [hg] at h
      rcases h with h | h
      · rcases mainCore_trace_events cfg after current _ h with ⟨m, hm⟩ | hm | hm
        · cases hm
        · injection hm with hp
          subst hp
          exact ⟨rfl, rfl, rfl⟩
        · cases hm
      · rcases mainCore_trace_events cfg after current _ h with ⟨m, hm⟩ | hm | hm
        · cases hm
        · cases hm
        · injection hm with hp
          subst hp
          exact ⟨rfl, rfl, rfl⟩

/-- Witness for C10 on a full concrete run that issues both a revoke and an
authorize call. -/
theorem c10_fixed_protocol_port_witness :
    (Event.revokeCall ⟨"tcp", 443, 443, {"10.0.1.0/24"}⟩ ∈
      (mainRun ⟨false, some "tok", .resp true⟩
        [⟨some "10.0.0.0/24", some ["bitbucket"], some ["egress"]⟩]
        [⟨some "tcp", some 443, ["10.0.1.0/24"]⟩]).trace) ∧
    (("tcp" : String) = "tcp" ∧ (443 : Nat) = 443 ∧ (443 : Nat) = 443) :=
  ⟨by decide,
    c10_fixed_protocol_port ⟨false, some "tok", .resp true⟩
      [⟨some "10.0.0.0/24", some ["bitbucket"], some ["egress"]⟩]
      [⟨some "tcp", some 443, ["10.0.1.0/24"]⟩] ⟨"tcp", 443, 443, {"10.0.1.0/24"}⟩
      (Or.inl (by decide))⟩

/-! ## C7 — malformed CIDR aborts before any mutation -/

theorem mapM_parse_none_aux (l : List String) (c : String) (hc : c ∈ l)
    (hbad : parseCidr c = none) :
    ∀ acc : List Net, List.mapM.loop parseCidr l acc = none := by
  induction l with
  | nil => cases hc
  | cons a t ih =>
    intro acc
    rcases List.mem_cons.mp hc with rfl | hmem
    · simp [List.mapM.loop, hbad]
    · cases hp : parseCidr a
      · simp [List.mapM.loop, hp]
      · simp only [List.mapM.loop, hp, Option.bind_some]
        exact ih hmem _

theorem mapM_parse_none (l : List String) (c : String) (hc : c ∈ l)
    (hbad : parseCidr c = none) : l.mapM parseCidr = none :=
  mapM_parse_none_aux l c hc hbad []

/-- C7: if any CIDR string that passed the feed filter is malformed, the
normalisation step fails the whole extraction with the `ValueError` of
`ip_network` — no partial collapsed result — and the run dies before any
firewall call, mutation calls included. -/
theorem c7_invalid_range_aborts (cfg : Config) (data : List FeedItem) (perms : List SgPerm)
    (cidrs : List String) (hf : feedFilterCidrs data = .ok cidrs)
    (c : String) (hc : c ∈ cidrs) (hbad : parseCidr c = none) :
    extract_bitbucket_egress_ipv4 data = .error .valueError ∧
    mainRun cfg data perms = ⟨[], 1, .crashed⟩ := by
  have hnone : collapseCidrs cidrs = none := by
    unfold collapseCidrs
    rw [mapM_parse_none cidrs c hc hbad]
    rfl
  have hext : extract_bitbucket_egress_ipv4 data = .error .valueError := by
    unfold extract_bitbucket_egress_ipv4
    rw [hf]
    show (match collapseCidrs cidrs with
      | none => (.error .valueError : Except ExtractErr (List String × List String))
      | some after => .ok (cidrs, after)) = .error .valueError
    rw [hnone]
  refine ⟨hext, ?_⟩
  unfold mainRun
  rw [hext]

/-- Witness for C7: a feed entry whose CIDR has host bits set (rejected by
`ip_network(strict=True)`). -/
theorem c7_invalid_range_aborts_witness :
    (feedFilterCidrs [⟨some "10.0.0.1/24", some ["bitbucket"], some ["egress"]⟩] =
        .ok ["10.0.0.1/24"] ∧
      "10.0.0.1/24" ∈ ["10.0.0.1/24"] ∧ parseCidr "10.0.0.1/24" = none) ∧
    (extract_bitbucket_egress_ipv4 [⟨some "10.0.0.1/24", some ["bitbucket"], some ["egress"]⟩] =
        .error .valueError ∧
      mainRun ⟨false, some "tok", .resp true⟩
        [⟨some "10.0.0.1/24", some ["bitbucket"], some ["egress"]⟩] [] = ⟨[], 1, .crashed⟩) :=
  ⟨⟨by decide, by decide, by decide⟩,
    c7_invalid_range_aborts ⟨false, some "tok", .resp true⟩
      [⟨some "10.0.0.1/24", some ["bitbucket"], some ["egress"]⟩] [] ["10.0.0.1/24"]
      (by decide) "10.0.0.1/24" (by decide) (by decide)⟩

/-! ## C3 — order-insensitive no-change detection -/

theorem netLT_not_le (a b : Net) (hlt : netLT a b) (hle : netLE b a) : False := by
  unfold netLT netLE at *
  rcases hlt with h | ⟨e, hp⟩
  · rcases hle with h2 | ⟨e2, _⟩
    · exact Nat.lt_irrefl _ (h.trans h2)
    · exact Nat.lt_irrefl _ (e2 ▸ h)
  · rcases hle with h2 | ⟨e2, hp2⟩
    · exact Nat.lt_irrefl _ (e ▸ h2)
    · exact Nat.lt_irrefl _ (Nat.lt_of_lt_of_le hp hp2)

theorem perm_pairwise_key_eq {α : Type} (key : α → Net) :
    ∀ (l₁ l₂ : List α), l₁.Perm l₂ →
      l₁.Pairwise (fun a b => netLT (key a) (key b)) →
      l₂.Pairwise (fun a b => netLE (key a) (key b)) → l₁ = l₂ := by
  intro l₁
  induction l₁ with
  | nil =>
    intro l₂ hp _ _
    exact List.Perm.nil_eq hp
  | cons a t ih =>
    intro l₂ hp h1 h2
    cases l₂ with
    | nil =>
      have := hp.length_eq
      simp at this
    | cons b u =>
      have hab : a = b := by
        by_contra hne
        have hbmem : b ∈ a :: t := hp.mem_iff.mpr (List.mem_cons_self b u)
        have hamem : a ∈ b :: u := hp.mem_iff.mp (List.mem_cons_self a t)
        rcases List.mem_cons.mp hbmem with heq | hbt
        · exact hne heq.symm
        rcases List.mem_cons.mp hamem with heq | hau
        · exact hne heq
        have hlt : netLT (key a) (key b) := (List.pairwise_cons.mp h1).1 b hbt
        have hle : netLE (key b) (key a) := (List.pairwise_cons.mp h2).1 a hau
        exact netLT_not_le _ _ hlt hle
      subst hab
      have hperm : t.Perm u := List.Perm.cons_inv hp
      rw [ih u hperm (List.pairwise_cons.mp h1).2 (List.pairwise_cons.mp h2).2]

theorem keyLT_netLT (a b : String) (h : keyLT a b) :
    netLT (parseKey a) (parseKey b) := by
  unfold keyLT at h
  unfold parseKey
  rcases ha : parseCidr a with _ | x <;> rw [ha] at h
  · cases h
  · rcases hb : parseCidr b with _ | y <;> rw [hb] at h
    · cases h
    · exact h

theorem mapM_decorate_aux (l : List String)
    (h : ∀ s ∈ l, (parseCidr s).isSome = true) :
    ∀ acc : List (Net × String),
      List.mapM.loop (fun s => (parseCidr s).map (fun n => ((n, s) : Net × String))) l acc =
        some (acc.reverse ++ l.map (fun s => (parseKey s, s))) := by
  induction l with
  | nil =>
    intro acc
    simp [List.mapM.loop]
  | cons a t ih =>
    intro acc
    rcases Option.isSome_iff_exists.mp (h a (List.mem_cons_self a t)) with ⟨n, hn⟩
    have hkey : parseKey a = n := by unfold parseKey; rw [hn]; rfl
    have iht := ih (fun s hs => h s (List.mem_cons_of_mem a hs)) ((n, a) :: acc)
    simp only [List.mapM.loop, hn, Option.map_some']
    show List.mapM.loop (fun s => Option.map (fun n => (n, s)) (parseCidr s)) t ((n, a) :: acc) =
      some (acc.reverse ++ List.map (fun s => (parseKey s, s)) (a :: t))
    rw [iht]
    simp [hkey]

theorem sortByNetKey_of_parse (l : List String)
    (h : ∀ s ∈ l, (parseCidr s).isSome = true) :
    sortByNetKey l =
      some ((List.insertionSort pairLE (l.map (fun s => (parseKey s, s)))).map Prod.snd) := by
  unfold sortByNetKey
  have := mapM_decorate_aux l h []
  rw [show l.mapM (fun s => (parseCidr s).map (fun n => ((n, s) : Net × String))) =
    List.mapM.loop (fun s => (parseCidr s).map (fun n => ((n, s) : Net × String))) l [] from rfl]
  rw [this]
  rfl

/-- C3: if the desired CIDR list (as produced by the collapse step: strictly
sorted by parsed network, every entry parseable) and the current firewall
rules contain exactly the same CIDR strings — in whatever order the firewall
read reported them — then `toAdd` and `toRemove` are both empty, the run
takes the no-change branch with exit status 0, and no mutation or
notification call is issued. -/
theorem c3_no_change (cfg : Config) (after : List String) (perms : List SgPerm)
    (hsorted : after.Pairwise keyLT)
    (hparse : ∀ s ∈ after, (parseCidr s).isSome = true)
    (hperm : ((perms.map permRules).flatten).Perm after) :
    to_add after ((perms.map permRules).flatten) = ∅ ∧
    to_remove after ((perms.map permRules).flatten) = ∅ ∧
    mainFromAfter cfg after perms = ⟨[], 0, .noChange⟩ := by
  have hparse_raw : ∀ s ∈ (perms.map permRules).flatten, (parseCidr s).isSome = true :=
    fun s hs => hparse s (hperm.mem_iff.mp hs)
  have hg : get_sg_ingress_rules perms =
      some ((List.insertionSort pairLE
        (((perms.map permRules).flatten).map (fun s => (parseKey s, s)))).map Prod.snd) :=
    sortByNetKey_of_parse _ hparse_raw
  set raw := (perms.map permRules).flatten with hraw
  set qs := after.map (fun s => (parseKey s, s)) with hqs
  set ps := raw.map (fun s => (parseKey s, s)) with hps
  have hps_perm : ps.Perm qs := (hperm.map _)
  have hsort_perm : (List.insertionSort pairLE ps).Perm qs :=
    (List.perm_insertionSort pairLE ps).trans hps_perm
  have hsorted_out : (List.insertionSort pairLE ps).Pairwise
      (fun x y : Net × String => netLE x.1 y.1) := by
    have := List.sorted_insertionSort pairLE ps
    exact this.imp (fun h => h)
  have hqs_strict : qs.Pairwise (fun x y : Net × String => netLT x.1 y.1) := by
    rw [hqs, List.pairwise_map]
    exact hsorted.imp (fun h => keyLT_netLT _ _ h)
  have hqs_eq : qs = List.insertionSort pairLE ps :=
    perm_pairwise_key_eq Prod.fst qs (List.insertionSort pairLE ps)
      hsort_perm.symm hqs_strict hsorted_out
  have hcur : get_sg_ingress_rules perms = some after := by
    rw [hg, ← hqs_eq, hqs, List.map_map]
    rw [show (Prod.snd ∘ fun s : String => (parseKey s, s)) = id from rfl, List.map_id]
  have hfin : after.toFinset = raw.toFinset :=
    Finset.ext (fun x => by
      simp only [List.mem_toFinset]
      exact ⟨fun h => hperm.mem_iff.mpr h, fun h => hperm.mem_iff.mp h⟩)
  refine ⟨?_, ?_, ?_⟩
  · unfold to_add
    rw [hfin, Finset.sdiff_self]
  · unfold to_remove
    rw [hfin, Finset.sdiff_self]
  · unfold mainFromAfter
    rw [hcur]
    show mainCore cfg after after = ⟨[], 0, .noChange⟩
    unfold mainCore
    rw [if_pos rfl]

/-- Witness for C3: the same two CIDRs on both sides, reported by the
firewall read in reversed order. -/
theorem c3_no_change_witness :
    ((["10.0.0.0/24", "10.0.2.0/24"] : List String).Pairwise keyLT ∧
      (∀ s ∈ (["10.0.0.0/24", "10.0.2.0/24"] : List String), (parseCidr s).isSome = true) ∧
      (([(⟨some "tcp", some 443, ["10.0.2.0/24", "10.0.0.0/24"]⟩ : SgPerm)].map
        permRules).flatten).Perm ["10.0.0.0/24", "10.0.2.0/24"]) ∧
    (to_add ["10.0.0.0/24", "10.0.2.0/24"]
        (([(⟨some "tcp", some 443, ["10.0.2.0/24", "10.0.0.0/24"]⟩ : SgPerm)].map
          permRules).flatten) = ∅ ∧
      to_remove ["10.0.0.0/24", "10.0.2.0/24"]
        (([(⟨some "tcp", some 443, ["10.0.2.0/24", "10.0.0.0/24"]⟩ : SgPerm)].map
          permRules).flatten) = ∅ ∧
      mainFromAfter ⟨false, some "tok", .resp true⟩ ["10.0.0.0/24", "10.0.2.0/24"]
        [⟨some "tcp", some 443, ["10.0.2.0/24", "10.0.0.0/24"]⟩] = ⟨[], 0, .noChange⟩) :=
  ⟨⟨by decide, by decide, by decide⟩,
    c3_no_change ⟨false, some "tok", .resp true⟩ ["10.0.0.0/24", "10.0.2.0/24"]
      [⟨some "tcp", some 443, ["10.0.2.0/24", "10.0.0.0/24"]⟩]
      (by decide) (by decide) (by decide)⟩

/-! ## C6 — order-independence of the collapse step.

The proof shows that the result of `collapseAddresses` on valid input is the
unique sorted listing of the unique pairwise-disjoint sibling-free CIDR cover
of the input's address coverage, hence a function of that coverage alone —
and coverage is invariant under permutation. -/

theorem Net.size_pos (n : Net) : 0 < n.size := Nat.two_pow_pos _

theorem Net.addr_mem_addrSet (n : Net) : n.addr ∈ n.addrSet := by
  unfold Net.addrSet
  exact Set.mem_Ico.mpr ⟨le_refl _, Nat.lt_add_of_pos_right n.size_pos⟩

theorem Net.size_dvd_addr (n : Net) (h : n.Valid) : n.size ∣ n.addr :=
  Nat.dvd_of_mod_eq_zero h.2.2

theorem add_dvd_le (d x y : Nat) (hx : d ∣ x) (hy : d ∣ y) (hlt : x < y) : x + d ≤ y := by
  rcases hx with ⟨a, rfl⟩
  rcases hy with ⟨b, rfl⟩
  rcases Nat.eq_zero_or_pos d with rfl | hd
  · simp at hlt
  · have hab : a < b := Nat.lt_of_mul_lt_mul_left hlt
    calc d * a + d = d * (a + 1) := by ring
    _ ≤ d * b := Nat.mul_le_mul_left d hab
    _ = d * b := rfl

theorem size_dvd_size (a b : Net) (h : a.size ≤ b.size) : a.size ∣ b.size := by
  unfold Net.size at *
  exact (Nat.pow_dvd_pow_iff_le_right (by omega : 1 < 2)).mpr
    ((Nat.pow_le_pow_iff_right (by omega : 1 < 2)).mp h)

theorem Net.addr_add_size_le (n : Net) (h : n.Valid) : n.addr + n.size ≤ 2 ^ 32 := by
  have hdvd : n.size ∣ 2 ^ 32 := by
    unfold Net.size
    exact Nat.pow_dvd_pow 2 (by omega)
  exact add_dvd_le n.size n.addr (2 ^ 32) (n.size_dvd_addr h) hdvd h.2.1

theorem subset_of_inter_of_size_le (a b : Net) (ha : a.Valid) (hb : b.Valid)
    (hsize : a.size ≤ b.size) (hx : ¬ Disjoint a.addrSet b.addrSet) :
    a.addrSet ⊆ b.addrSet := by
  rcases Set.not_disjoint_iff.mp hx with ⟨x, hxa, hxb⟩
  unfold Net.addrSet at hxa hxb ⊢
  rcases Set.mem_Ico.mp hxa with ⟨hxa1, hxa2⟩
  rcases Set.mem_Ico.mp hxb with ⟨hxb1, hxb2⟩
  have hdvd_st : a.size ∣ b.size := size_dvd_size a b hsize
  have hdvd_A : a.size ∣ a.addr := a.size_dvd_addr ha
  have hdvd_B : a.size ∣ b.addr := hdvd_st.trans (b.size_dvd_addr hb)
  have hBA : b.addr ≤ a.addr := by
    by_contra hlt
    have := add_dvd_le a.size a.addr b.addr hdvd_A hdvd_B (by omega)
    omega
  have hend : a.addr + a.size ≤ b.addr + b.size := by
    by_contra hlt
    have h1 : a.size ∣ b.addr + b.size := Nat.dvd_add hdvd_B hdvd_st
    have h2 : a.size ∣ a.addr + a.size := Nat.dvd_add hdvd_A dvd_rfl
    have := add_dvd_le a.size (b.addr + b.size) (a.addr + a.size) h1 h2 (by omega)
    omega
  exact Set.Ico_subset_Ico hBA hend

theorem addrSet_bounds (a b : Net) (h : a.addrSet ⊆ b.addrSet) :
    b.addr ≤ a.addr ∧ a.addr + a.size ≤ b.addr + b.size := by
  have h1 := h a.addr_mem_addrSet
  have h2 : a.addr + a.size - 1 ∈ a.addrSet := by
    unfold Net.addrSet
    have := a.size_pos
    exact Set.mem_Ico.mpr ⟨by omega, by omega⟩
  have h3 := h h2
  unfold Net.addrSet at h1 h3
  rcases Set.mem_Ico.mp h1 with ⟨hb1, _⟩
  rcases Set.mem_Ico.mp h3 with ⟨_, hb2⟩
  have := a.size_pos
  exact ⟨hb1, by omega⟩

theorem size_le_of_subset (a b : Net) (h : a.addrSet ⊆ b.addrSet) : a.size ≤ b.size := by
  rcases addrSet_bounds a b h with ⟨h1, h2⟩
  omega

theorem plen_eq_of_size_eq (a b : Net) (ha : a.plen ≤ 32) (hb : b.plen ≤ 32)
    (h : a.size = b.size) : a.plen = b.plen := by
  unfold Net.size at h
  have := Nat.pow_right_injective (le_refl 2) h
  omega

theorem eq_of_subset_of_size_le (a b : Net) (ha : a.Valid) (hb : b.Valid)
    (hsub : a.addrSet ⊆ b.addrSet) (hsize : b.size ≤ a.size) : a = b := by
  have h1 := size_le_of_subset a b hsub
  have hs : a.size = b.size := le_antisymm h1 hsize
  rcases addrSet_bounds a b hsub with ⟨h2, h3⟩
  ext
  · omega
  · exact plen_eq_of_size_eq a b ha.1 hb.1 hs

theorem Net.supernet_of_pos (n : Net) (h : 1 ≤ n.plen) :
    n.supernet = ⟨n.addr - n.addr % 2 ^ (32 - (n.plen - 1)), n.plen - 1⟩ := by
  unfold Net.supernet
  rw [if_neg (by omega)]

theorem supernet_plen_pos (n : Net) (h : 1 ≤ n.plen) : n.supernet.plen = n.plen - 1 := by
  rw [n.supernet_of_pos h]

theorem supernet_size (n : Net) (hv : n.plen ≤ 32) (h : 1 ≤ n.plen) :
    n.supernet.size = 2 * n.size := by
  rw [n.supernet_of_pos h]
  unfold Net.size
  show 2 ^ (32 - (n.plen - 1)) = 2 * 2 ^ (32 - n.plen)
  rw [show 32 - (n.plen - 1) = (32 - n.plen) + 1 by omega, Nat.pow_succ]
  ring

theorem mod_two_size_cases (n : Net) (hv : n.Valid) (h : 1 ≤ n.plen) :
    n.addr % (2 * n.size) = 0 ∨ n.addr % (2 * n.size) = n.size := by
  have hs := n.size_pos
  have hd : n.size ∣ n.addr % (2 * n.size) :=
    (Nat.dvd_mod_iff ⟨2, by ring⟩).mpr (n.size_dvd_addr hv)
  have hlt : n.addr % (2 * n.size) < 2 * n.size := Nat.mod_lt _ (by omega)
  rcases hd with ⟨q, hq⟩
  have hq2 : q < 2 := by
    rcases Nat.lt_or_ge q 2 with h2 | h2
    · exact h2
    · exfalso
      have : n.size * 2 ≤ n.size * q := Nat.mul_le_mul_left _ h2
      omega
  interval_cases q
  · left
    omega
  · right
    omega

theorem Net.supernet_self (n : Net) (h : n.plen = 0) : n.supernet = n := by
  unfold Net.supernet
  rw [if_pos h]

theorem two_size_eq (n : Net) (hv : n.plen ≤ 32) (h : 1 ≤ n.plen) :
    2 ^ (32 - (n.plen - 1)) = 2 * n.size := by
  unfold Net.size
  rw [show 32 - (n.plen - 1) = (32 - n.plen) + 1 by omega, Nat.pow_succ]
  ring

theorem supernet_addr (n : Net) (hv : n.plen ≤ 32) (h : 1 ≤ n.plen) :
    n.supernet.addr = n.addr - n.addr % (2 * n.size) := by
  rw [n.supernet_of_pos h]
  show n.addr - n.addr % 2 ^ (32 - (n.plen - 1)) = _
  rw [two_size_eq n hv h]

theorem sub_mod_self_mod (a m : Nat) : (a - a % m) % m = 0 := by
  have hdm := Nat.div_add_mod a m
  have : a - a % m = m * (a / m) := by omega
  rw [this]
  exact Nat.mul_mod_right _ _

theorem supernet_valid (n : Net) (hv : n.Valid) : n.supernet.Valid := by
  by_cases h0 : n.plen = 0
  · rw [n.supernet_self h0]
    exact hv
  · have h1 : 1 ≤ n.plen := by omega
    refine ⟨?_, ?_, ?_⟩
    · rw [supernet_plen_pos n h1]
      have := hv.1
      omega
    · rw [supernet_addr n hv.1 h1]
      have := hv.2.1
      omega
    · have hsz : n.supernet.size = 2 * n.size := supernet_size n hv.1 h1
      rw [hsz, supernet_addr n hv.1 h1]
      exact sub_mod_self_mod _ _

theorem subset_supernet (n : Net) (hv : n.Valid) : n.addrSet ⊆ n.supernet.addrSet := by
  by_cases h0 : n.plen = 0
  · rw [n.supernet_self h0]
  · have h1 : 1 ≤ n.plen := by omega
    have hr := mod_two_size_cases n hv h1
    have hrle : n.addr % (2 * n.size) ≤ n.addr := Nat.mod_le _ _
    unfold Net.addrSet
    rw [supernet_addr n hv.1 h1, supernet_size n hv.1 h1]
    apply Set.Ico_subset_Ico
    · omega
    · rcases hr with hr | hr <;> omega

theorem supernet_addr_cases (n : Net) (hv : n.Valid) (h1 : 1 ≤ n.plen) :
    n.addr = n.supernet.addr ∨ n.addr = n.supernet.addr + n.size := by
  have hr := mod_two_size_cases n hv h1
  have hrle : n.addr % (2 * n.size) ≤ n.addr := Nat.mod_le _ _
  rw [supernet_addr n hv.1 h1]
  rcases hr with hr | hr
  · left
    omega
  · right
    omega

theorem size_eq_of_plen_eq (x y : Net) (h : x.plen = y.plen) : x.size = y.size := by
  unfold Net.size
  rw [h]

theorem children_union (x y : Net) (hvx : x.Valid) (hvy : y.Valid)
    (hxy : x ≠ y) (hsup : y.supernet = x.supernet) :
    x.addrSet ∪ y.addrSet = x.supernet.addrSet := by
  by_cases hx0 : x.plen = 0
  · have hk : x.supernet = x := x.supernet_self hx0
    rw [hk]
    have hy_sub : y.addrSet ⊆ x.addrSet := by
      have := subset_supernet y hvy
      rw [hsup, hk] at this
      exact this
    exact Set.union_eq_self_of_subset_right hy_sub
  · by_cases hy0 : y.plen = 0
    · have hk : y.supernet = y := y.supernet_self hy0
      have hky : x.supernet = y := by rw [← hsup, hk]
      rw [hky]
      have hx_sub : x.addrSet ⊆ y.addrSet := by
        have := subset_supernet x hvx
        rw [hky] at this
        exact this
      exact Set.union_eq_self_of_subset_left hx_sub
    · have hx1 : 1 ≤ x.plen := by omega
      have hy1 : 1 ≤ y.plen := by omega
      have hplen : x.plen = y.plen := by
        have h1 := supernet_plen_pos x hx1
        have h2 := supernet_plen_pos y hy1
        rw [hsup] at h2
        omega
      have hsz : x.size = y.size := size_eq_of_plen_eq x y hplen
      have hksz : x.supernet.size = 2 * x.size := supernet_size x hvx.1 hx1
      have hxc := supernet_addr_cases x hvx hx1
      have hyc := supernet_addr_cases y hvy hy1
      rw [hsup] at hyc
      have haddr_ne : x.addr ≠ y.addr := by
        intro he
        exact hxy (Net.ext he hplen)
      unfold Net.addrSet
      rw [hksz]
      rcases hxc with hx | hx <;> rcases hyc with hy | hy
      · exact absurd (by omega : x.addr = y.addr) haddr_ne
      · rw [hx, hy, ← hsz]
        rw [show x.supernet.addr + x.size + x.size = x.supernet.addr + 2 * x.size by ring] at *
        rw [Set.Ico_union_Ico_eq_Ico (by omega) (by omega)]
      · rw [hx, hy, ← hsz]
        rw [show x.supernet.addr + x.size + x.size = x.supernet.addr + 2 * x.size by ring] at *
        rw [Set.union_comm]
        rw [Set.Ico_union_Ico_eq_Ico (by omega) (by omega)]
      · exact absurd (by omega : x.addr = y.addr) haddr_ne

theorem sibling_plen (n : Net) : n.sibling.plen = n.plen := by
  unfold Net.sibling
  split <;> rfl

theorem sibling_size (n : Net) : n.sibling.size = n.size :=
  size_eq_of_plen_eq _ _ (sibling_plen n)

theorem sibling_ne (n : Net) (hv : n.Valid) (h1 : 1 ≤ n.plen) : n.sibling ≠ n := by
  have hs := n.size_pos
  have hr := mod_two_size_cases n hv h1
  have hrle : n.addr % (2 * n.size) ≤ n.addr := Nat.mod_le _ _
  unfold Net.sibling
  split
  · intro he
    have : n.addr + n.size = n.addr := congrArg Net.addr he
    omega
  · intro he
    rename_i hmod
    have hr2 : n.addr % (2 * n.size) = n.size := by tauto
    have : n.addr - n.size = n.addr := congrArg Net.addr he
    omega

theorem sibling_supernet (n : Net) (hv : n.Valid) (h1 : 1 ≤ n.plen) :
    n.sibling.supernet = n.supernet := by
  have hs := n.size_pos
  have hplen : n.sibling.plen = n.plen := sibling_plen n
  have hsz : n.sibling.size = n.size := sibling_size n
  have h1' : 1 ≤ n.sibling.plen := by omega
  have hvplen : n.sibling.plen ≤ 32 := by
    rw [hplen]
    exact hv.1
  have hdm := Nat.div_add_mod n.addr (2 * n.size)
  ext
  · rw [supernet_addr n.sibling hvplen h1', supernet_addr n hv.1 h1, hsz]
    rcases mod_two_size_cases n hv h1 with hr | hr
    · have hsib : n.sibling.addr = n.addr + n.size := by
        unfold Net.sibling
        rw [if_pos hr]
      rcases Nat.dvd_of_mod_eq_zero hr with ⟨t, ht⟩
      have hmod : (n.addr + n.size) % (2 * n.size) = n.size := by
        rw [ht, Nat.mul_add_mod]
        exact Nat.mod_eq_of_lt (by omega)
      rw [hsib, hmod, hr]
      omega
    · have hr0 : n.addr % (2 * n.size) ≠ 0 := by omega
      have hsib : n.sibling.addr = n.addr - n.size := by
        unfold Net.sibling
        rw [if_neg hr0]
      have haddr : n.addr = 2 * n.size * (n.addr / (2 * n.size)) + n.size := by omega
      have hmod : (n.addr - n.size) % (2 * n.size) = 0 := by
        rw [show n.addr - n.size = 2 * n.size * (n.addr / (2 * n.size)) by omega]
        exact Nat.mul_mod_right _ _
      rw [hsib, hmod, hr]
      omega
  · rw [supernet_plen_pos n.sibling h1', supernet_plen_pos n h1, hplen]

theorem two_size_dvd_pow (n : Net) (hv : n.plen ≤ 32) (h1 : 1 ≤ n.plen) :
    2 * n.size ∣ 2 ^ 32 := by
  unfold Net.size
  rw [show 2 * 2 ^ (32 - n.plen) = 2 ^ ((32 - n.plen) + 1) by ring]
  exact Nat.pow_dvd_pow 2 (by omega)

theorem sibling_valid (n : Net) (hv : n.Valid) (h1 : 1 ≤ n.plen) : n.sibling.Valid := by
  have hs := n.size_pos
  have h32 := hv.1
  have haddrlt := hv.2.1
  have hplen : n.sibling.plen = n.plen := sibling_plen n
  have hsz : n.sibling.size = n.size := sibling_size n
  have hrle : n.addr % (2 * n.size) ≤ n.addr := Nat.mod_le _ _
  rcases mod_two_size_cases n hv h1 with hr | hr
  · have hsib : n.sibling.addr = n.addr + n.size := by
      unfold Net.sibling
      rw [if_pos hr]
    have hd2 : 2 * n.size ∣ n.addr := Nat.dvd_of_mod_eq_zero hr
    have hbound := add_dvd_le (2 * n.size) n.addr (2 ^ 32) hd2
      (two_size_dvd_pow n hv.1 h1) hv.2.1
    refine ⟨by omega, by omega, ?_⟩
    rw [hsz, hsib, Nat.add_mod_right]
    exact hv.2.2
  · have hr0 : n.addr % (2 * n.size) ≠ 0 := by omega
    have hsib : n.sibling.addr = n.addr - n.size := by
      unfold Net.sibling
      rw [if_neg hr0]
    refine ⟨by omega, by omega, ?_⟩
    rw [hsz, hsib]
    exact Nat.dvd_iff_mod_eq_zero.mp (Nat.dvd_sub' (n.size_dvd_addr hv) dvd_rfl)

theorem coverage_nil : coverage [] = ∅ := by
  unfold coverage
  simp

theorem mem_coverage (x : Nat) (l : List Net) :
    x ∈ coverage l ↔ ∃ n ∈ l, x ∈ n.addrSet := Iff.rfl

theorem coverage_cons (n : Net) (l : List Net) :
    coverage (n :: l) = n.addrSet ∪ coverage l := by
  unfold coverage
  ext x
  simp [or_and_right, exists_or]

theorem coverage_append (l₁ l₂ : List Net) :
    coverage (l₁ ++ l₂) = coverage l₁ ∪ coverage l₂ := by
  unfold coverage
  ext x
  simp [or_and_right, exists_or]

theorem coverage_perm (l₁ l₂ : List Net) (h : l₁.Perm l₂) : coverage l₁ = coverage l₂ := by
  unfold coverage
  ext x
  constructor
  · rintro ⟨n, hn, hx⟩
    exact ⟨n, h.mem_iff.mp hn, hx⟩
  · rintro ⟨n, hn, hx⟩
    exact ⟨n, h.mem_iff.mpr hn, hx⟩

theorem coverage_perm' (l₁ l₂ : List Net) (h : l₁.Perm l₂) : coverage l₂ = coverage l₁ :=
  (coverage_perm l₁ l₂ h).symm

theorem coverage_subset_of_mem (n : Net) (l : List Net) (h : n ∈ l) :
    n.addrSet ⊆ coverage l := fun x hx => ⟨n, h, hx⟩

theorem sumW_cons (n : Net) (l : List Net) : sumW (n :: l) = netW n + sumW l := by
  unfold sumW
  simp

theorem sumW_perm (l₁ l₂ : List Net) (h : l₁.Perm l₂) : sumW l₁ = sumW l₂ :=
  List.Perm.sum_eq (h.map netW)

theorem netW_pos (n : Net) : 0 < netW n := Nat.pos_pow_of_pos _ (by omega)

theorem supernet_netW_lt (n e : Net) : 2 * netW n.supernet < 2 * netW n + netW e := by
  have he := netW_pos e
  by_cases h0 : n.plen = 0
  · rw [n.supernet_self h0]
    omega
  · have h1 : 1 ≤ n.plen := by omega
    have hp : n.supernet.plen = n.plen - 1 := supernet_plen_pos n h1
    have : netW n.supernet < netW n := by
      unfold netW
      rw [hp]
      exact Nat.pow_lt_pow_right (by omega) (by omega)
    omega

theorem lookupA_none_iff (k : Net) (s : List (Net × Net)) :
    lookupA k s = none ↔ ∀ e ∈ s, e.1 ≠ k := by
  unfold lookupA
  rw [Option.map_eq_none', List.find?_eq_none]
  constructor
  · intro h e he
    have := h e he
    simpa using this
  · intro h e he
    simpa using h e he

theorem lookupA_some_mem (k v : Net) (s : List (Net × Net)) (h : lookupA k s = some v) :
    (k, v) ∈ s := by
  unfold lookupA at h
  rcases Option.map_eq_some'.mp h with ⟨e, he, hev⟩
  have hmem := List.mem_of_find?_eq_some he
  have hkey : e.1 = k := by
    have := List.find?_some he
    simpa using this
  have : e = (k, v) := by
    rcases e with ⟨e1, e2⟩
    simp at hkey hev
    rw [hkey, hev]
  rw [← this]
  exact hmem

theorem eraseA_sublist (k : Net) (s : List (Net × Net)) : (eraseA k s).Sublist s :=
  List.filter_sublist s

theorem eraseA_eq_self (k : Net) (s : List (Net × Net)) (h : ∀ e ∈ s, e.1 ≠ k) :
    eraseA k s = s := by
  unfold eraseA
  apply List.filter_eq_self.mpr
  intro e he
  simpa using h e he

theorem perm_cons_eraseA (k v : Net) (s : List (Net × Net))
    (hnd : (s.map Prod.fst).Nodup) (h : lookupA k s = some v) :
    s.Perm ((k, v) :: eraseA k s) := by
  induction s with
  | nil => cases h
  | cons e rest ih =>
    rcases List.nodup_cons.mp hnd with ⟨hknotin, hndrest⟩
    by_cases hek : e.1 = k
    · have hev : e = (k, v) := by
        unfold lookupA at h
        rw [List.find?_cons_of_pos _ (by simpa using hek)] at h
        rcases e with ⟨e1, e2⟩
        simp at h hek
        rw [hek, h]
      have hrest : eraseA k rest = rest := by
        apply eraseA_eq_self
        intro e2 he2 he2k
        exact hknotin (by
          rw [hek, ← he2k]
          exact List.mem_map_of_mem Prod.fst he2)
      have : eraseA k (e :: rest) = eraseA k rest := by
        unfold eraseA
        rw [List.filter_cons_of_neg (by simpa using hek)]
      rw [this, hrest, hev]
    · have h' : lookupA k rest = some v := by
        unfold lookupA at h ⊢
        rw [List.find?_cons_of_neg _ (by simpa using hek)] at h
        exact h
      have : eraseA k (e :: rest) = e :: eraseA k rest := by
        unfold eraseA
        rw [List.filter_cons_of_pos (by simpa using hek)]
      rw [this]
      exact List.Perm.trans ((ih hndrest h').cons e)
        (List.Perm.swap (k, v) e (eraseA k rest))

theorem key_unique (s : List (Net × Net)) (hnd : (s.map Prod.fst).Nodup)
    (k v₁ v₂ : Net) (h1 : (k, v₁) ∈ s) (h2 : (k, v₂) ∈ s) : v₁ = v₂ := by
  induction s with
  | nil => cases h1
  | cons e rest ih =>
    rcases List.nodup_cons.mp hnd with ⟨hknotin, hndrest⟩
    rcases List.mem_cons.mp h1 with he1 | he1 <;> rcases List.mem_cons.mp h2 with he2 | he2
    · have he12 := he1.trans he2.symm
      exact ((Prod.mk.injEq _ _ _ _).mp he12).2
    · exfalso
      apply hknotin
      rw [← he1]
      simpa using List.mem_map_of_mem Prod.fst he2
    · exfalso
      apply hknotin
      rw [← he2]
      simpa using List.mem_map_of_mem Prod.fst he1
    · exact ih hndrest he1 he2

theorem dictinv_values_nodup (s : List (Net × Net)) (hinv : DictInvL s) :
    (s.map Prod.snd).Nodup := by
  rcases hinv with ⟨hnd, hent⟩
  induction s with
  | nil => exact List.nodup_nil
  | cons e rest ih =>
    rcases List.nodup_cons.mp hnd with ⟨hknotin, hndrest⟩
    rw [List.map_cons]
    apply List.nodup_cons.mpr
    refine ⟨?_, ih hndrest (fun x hx => hent x (List.mem_cons_of_mem e hx))⟩
    intro hmem
    rcases List.mem_map.mp hmem with ⟨e2, he2, hval⟩
    apply hknotin
    have hk1 : e.2.supernet = e.1 := (hent e (List.mem_cons_self e rest)).1
    have hk2 : e2.2.supernet = e2.1 := (hent e2 (List.mem_cons_of_mem e he2)).1
    rw [← hk1, ← hval, hk2]
    exact List.mem_map_of_mem Prod.fst he2

theorem dictinv_values_sibfree (s : List (Net × Net)) (hinv : DictInvL s) :
    ∀ a ∈ s.map Prod.snd, ∀ b ∈ s.map Prod.snd, a.supernet = b.supernet → a = b := by
  rcases hinv with ⟨hnd, hent⟩
  intro a ha b hb hsup
  rcases List.mem_map.mp ha with ⟨ea, hea, hva⟩
  rcases List.mem_map.mp hb with ⟨eb, heb, hvb⟩
  have hka : ea.1 = a.supernet := by
    rw [← hva]
    exact ((hent ea hea).1).symm
  have hkb : eb.1 = b.supernet := by
    rw [← hvb]
    exact ((hent eb heb).1).symm
  have hea' : (a.supernet, a) ∈ s := by
    have : ea = (a.supernet, a) := by
      rcases ea with ⟨x1, x2⟩
      simp at hva hka
      rw [hva, hka]
    rw [← this]
    exact hea
  have heb' : (a.supernet, b) ∈ s := by
    have : eb = (a.supernet, b) := by
      rcases eb with ⟨x1, x2⟩
      simp at hvb hkb
      rw [hvb, hkb, hsup]
    rw [← this]
    exact heb
  exact key_unique s hnd a.supernet a b hea' heb'

theorem dictinv_values_valid (s : List (Net × Net)) (hinv : DictInvL s) :
    ∀ n ∈ s.map Prod.snd, n.Valid := by
  intro n hn
  rcases List.mem_map.mp hn with ⟨e, he, hv⟩
  rw [← hv]
  exact (hinv.2 e he).2

theorem sumW_append (l₁ l₂ : List Net) : sumW (l₁ ++ l₂) = sumW l₁ + sumW l₂ := by
  unfold sumW
  rw [List.map_append, List.sum_append]

theorem mergeLoopF_nil (fuel : Nat) (s : List (Net × Net)) : mergeLoopF fuel [] s = s := by
  cases fuel <;> rfl

theorem mergeLoopF_succ_none (fuel : Nat) (net : Net) (rest : List Net)
    (s : List (Net × Net)) (hlk : lookupA net.supernet s = none) :
    mergeLoopF (fuel + 1) (net :: rest) s =
      mergeLoopF fuel rest (s ++ [(net.supernet, net)]) := by
  simp only [mergeLoopF, hlk]

theorem mergeLoopF_succ_dup (fuel : Nat) (net : Net) (rest : List Net)
    (s : List (Net × Net)) (hlk : lookupA net.supernet s = some net) :
    mergeLoopF (fuel + 1) (net :: rest) s = mergeLoopF fuel rest s := by
  simp only [mergeLoopF, hlk]
  simp

theorem mergeLoopF_succ_merge (fuel : Nat) (net existing : Net) (rest : List Net)
    (s : List (Net × Net)) (hlk : lookupA net.supernet s = some existing)
    (hne : existing ≠ net) :
    mergeLoopF (fuel + 1) (net :: rest) s =
      mergeLoopF fuel (net.supernet :: rest) (eraseA net.supernet s) := by
  simp only [mergeLoopF, hlk, if_neg hne]

theorem mergeLoopF_spec (fuel : Nat) :
    ∀ (tm : List Net) (s : List (Net × Net)),
      loopMeasure tm s ≤ fuel →
      (∀ n ∈ tm, n.Valid) →
      DictInvL s →
      DictInvL (mergeLoopF fuel tm s) ∧
        coverage ((mergeLoopF fuel tm s).map Prod.snd) =
          coverage tm ∪ coverage (s.map Prod.snd) := by
  induction fuel with
  | zero =>
    intro tm s hm hv hinv
    cases tm with
    | nil =>
      rw [mergeLoopF_nil]
      exact ⟨hinv, by rw [coverage_nil, Set.empty_union]⟩
    | cons n rest =>
      exfalso
      have h1 := netW_pos n
      unfold loopMeasure at hm
      rw [sumW_cons] at hm
      omega
  | succ fuel ih =>
    intro tm s hm hv hinv
    cases tm with
    | nil =>
      rw [mergeLoopF_nil]
      exact ⟨hinv, by rw [coverage_nil, Set.empty_union]⟩
    | cons net rest =>
      have hvnet : net.Valid := hv net (List.mem_cons_self net rest)
      have hvrest : ∀ n ∈ rest, n.Valid := fun n hn => hv n (List.mem_cons_of_mem net hn)
      unfold loopMeasure at hm
      rw [sumW_cons] at hm
      have hwnet := netW_pos net
      cases hlk : lookupA net.supernet s with
      | none =>
        rw [mergeLoopF_succ_none fuel net rest s hlk]
        have hm' : loopMeasure rest (s ++ [(net.supernet, net)]) ≤ fuel := by
          unfold loopMeasure
          rw [List.map_append]
          rw [sumW_append]
          have hone : sumW ([(net.supernet, net)].map Prod.snd) = netW net := by
            simp [sumW, netW]
          rw [hone]
          omega
        have hinv' : DictInvL (s ++ [(net.supernet, net)]) := by
          constructor
          · rw [List.map_append]
            refine List.Nodup.append hinv.1 (by simp) ?_
            intro k hk1 hk2
            simp at hk2
            rw [hk2] at hk1
            exact ((lookupA_none_iff _ _).mp hlk
              (let e := List.mem_map.mp hk1; e.choose)
              (List.mem_map.mp hk1).choose_spec.1
              (List.mem_map.mp hk1).choose_spec.2)
          · intro e he
            rcases List.mem_append.mp he with he | he
            · exact hinv.2 e he
            · simp at he
              rw [he]
              exact ⟨rfl, hvnet⟩
        obtain ⟨hinvr, hcovr⟩ := ih rest (s ++ [(net.supernet, net)]) hm' hvrest hinv'
        refine ⟨hinvr, ?_⟩
        rw [hcovr, List.map_append, coverage_append, coverage_cons]
        have hone : coverage ([(net.supernet, net)].map Prod.snd) =
            net.addrSet ∪ (∅ : Set Nat) := by
          rw [List.map_cons, List.map_nil, coverage_cons, coverage_nil]
        rw [hone]
        ext x
        simp only [Set.mem_union, Set.mem_empty_iff_false, or_false]
        tauto
      | some existing =>
        have hmem := lookupA_some_mem _ _ _ hlk
        have hexv := hinv.2 _ hmem
        by_cases hex : existing = net
        · rw [hex] at hlk
          rw [mergeLoopF_succ_dup fuel net rest s hlk]
          have hm' : loopMeasure rest s ≤ fuel := by
            unfold loopMeasure
            omega
          obtain ⟨hinvr, hcovr⟩ := ih rest s hm' hvrest hinv
          refine ⟨hinvr, ?_⟩
          rw [hcovr, coverage_cons]
          have hnet_mem : net ∈ s.map Prod.snd := by
            rw [hex] at hmem
            exact List.mem_map_of_mem Prod.snd hmem
          have habs := coverage_subset_of_mem net (s.map Prod.snd) hnet_mem
          ext x
          simp only [Set.mem_union]
          constructor
          · tauto
          · rintro ((hx | hx) | hx)
            · exact Or.inr (habs hx)
            · tauto
            · tauto
        · rw [mergeLoopF_succ_merge fuel net existing rest s hlk hex]
          have hperm := perm_cons_eraseA _ _ s hinv.1 hlk
          have hpermv : (s.map Prod.snd).Perm
              (existing :: (eraseA net.supernet s).map Prod.snd) := by
            have := hperm.map Prod.snd
            simpa using this
          have hsw : sumW (s.map Prod.snd) =
              netW existing + sumW ((eraseA net.supernet s).map Prod.snd) := by
            rw [sumW_perm _ _ hpermv, sumW_cons]
          have hm' : loopMeasure (net.supernet :: rest) (eraseA net.supernet s) ≤ fuel := by
            unfold loopMeasure
            rw [sumW_cons]
            have := supernet_netW_lt net existing
            omega
          have hv' : ∀ n ∈ net.supernet :: rest, n.Valid := by
            intro n hn
            rcases List.mem_cons.mp hn with rfl | hn
            · exact supernet_valid net hvnet
            · exact hvrest n hn
          have hinv' : DictInvL (eraseA net.supernet s) := by
            constructor
            · exact List.Nodup.sublist (List.Sublist.map Prod.fst (eraseA_sublist _ _)) hinv.1
            · intro e he
              exact hinv.2 e ((eraseA_sublist _ _).subset he)
          obtain ⟨hinvr, hcovr⟩ := ih _ _ hm' hv' hinv'
          refine ⟨hinvr, ?_⟩
          rw [hcovr, coverage_cons, coverage_cons]
          have hchild := children_union net existing hvnet hexv.2
            (fun he => hex he.symm) hexv.1
          have hcovs : coverage (s.map Prod.snd) =
              existing.addrSet ∪ coverage ((eraseA net.supernet s).map Prod.snd) := by
            rw [coverage_perm _ _ hpermv, coverage_cons]
          rw [hcovs, ← hchild]
          ext x
          simp only [Set.mem_union]
          tauto

theorem mergeLoop_spec (l : List Net) (hv : ∀ n ∈ l, n.Valid) :
    DictInvL (mergeLoop l []) ∧
      coverage ((mergeLoop l []).map Prod.snd) = coverage l := by
  have h := mergeLoopF_spec (loopMeasure l []) l [] (le_refl _) hv
    ⟨List.nodup_nil, by simp⟩
  unfold mergeLoop
  refine ⟨h.1, ?_⟩
  rw [h.2]
  show coverage l ∪ coverage [] = coverage l
  rw [coverage_nil, Set.union_empty]

theorem netLE_addr_le (a b : Net) (h : netLE a b) : a.addr ≤ b.addr := by
  unfold netLE at h
  rcases h with h | ⟨h, _⟩ <;> omega

theorem size_antitone (a b : Net) (h : a.plen ≤ b.plen) : b.size ≤ a.size := by
  unfold Net.size
  exact Nat.pow_le_pow_right (by omega) (by omega)

theorem sorted_bc_disjoint (n k : Net) (hvn : n.Valid) (hvk : k.Valid)
    (hle : netLE n k) (hbc : n.broadcast < k.broadcast) :
    Disjoint n.addrSet k.addrSet := by
  by_contra hnd
  have hsn := n.size_pos
  have hsk := k.size_pos
  rcases Nat.le_total n.size k.size with hsz | hsz
  · have hsub := subset_of_inter_of_size_le n k hvn hvk hsz hnd
    rcases addrSet_bounds n k hsub with ⟨h1, h2⟩
    rcases hle with h | ⟨heq, hpl⟩
    · omega
    · have hks := size_antitone n k hpl
      unfold Net.broadcast at hbc
      omega
  · have hsub := subset_of_inter_of_size_le k n hvk hvn hsz
      (fun hd => hnd hd.symm)
    rcases addrSet_bounds k n hsub with ⟨h1, h2⟩
    unfold Net.broadcast at hbc
    omega

theorem filterGo_sublist : ∀ (l : List Net) (prev : Option Net),
    (filterGo prev l).Sublist l := by
  intro l
  induction l with
  | nil =>
    intro prev
    cases prev <;> exact List.Sublist.refl _
  | cons n rest ih =>
    intro prev
    cases prev with
    | none => exact (ih (some n)).cons₂ n
    | some m =>
      show (if n.broadcast ≤ m.broadcast then filterGo (some m) rest
        else n :: filterGo (some n) rest).Sublist (n :: rest)
      split
      · exact (ih (some m)).cons n
      · exact (ih (some n)).cons₂ n

theorem filterGo_some_coverage : ∀ (l : List Net) (m : Net),
    l.Pairwise netLE → (∀ n ∈ l, n.Valid) → m.Valid →
    (∀ n ∈ l, m.addr ≤ n.addr) →
    coverage (filterGo (some m) l) ∪ m.addrSet = coverage l ∪ m.addrSet := by
  intro l
  induction l with
  | nil => intro m _ _ _ _; rfl
  | cons n rest ih =>
    intro m hs hv hm hml
    have hvn : n.Valid := hv n (List.mem_cons_self n rest)
    have hvrest : ∀ x ∈ rest, x.Valid := fun x hx => hv x (List.mem_cons_of_mem n hx)
    have hsrest : rest.Pairwise netLE := (List.pairwise_cons.mp hs).2
    have hnle : ∀ x ∈ rest, netLE n x := (List.pairwise_cons.mp hs).1
    show coverage (if n.broadcast ≤ m.broadcast then filterGo (some m) rest
      else n :: filterGo (some n) rest) ∪ m.addrSet = coverage (n :: rest) ∪ m.addrSet
    split
    · rename_i hbc
      have hsub : n.addrSet ⊆ m.addrSet := by
        have h1 := hml n (List.mem_cons_self n rest)
        have hs1 := n.size_pos
        have hs2 := m.size_pos
        unfold Net.broadcast at hbc
        unfold Net.addrSet
        exact Set.Ico_subset_Ico h1 (by omega)
      rw [ih m hsrest hvrest hm (fun x hx => hml x (List.mem_cons_of_mem n hx)),
        coverage_cons]
      ext x
      simp only [Set.mem_union]
      constructor
      · tauto
      · rintro ((hx | hx) | hx)
        · exact Or.inr (hsub hx)
        · tauto
        · tauto
    · have hrec := ih n hsrest hvrest hvn (fun x hx => netLE_addr_le n x (hnle x hx))
      have hiff := Set.ext_iff.mp hrec
      rw [coverage_cons, coverage_cons]
      ext x
      simp only [Set.mem_union]
      have := hiff x
      simp only [Set.mem_union] at this
      tauto

theorem filterGo_none_coverage (l : List Net) (hs : l.Pairwise netLE)
    (hv : ∀ n ∈ l, n.Valid) : coverage (filterGo none l) = coverage l := by
  cases l with
  | nil => rfl
  | cons n rest =>
    have hvn : n.Valid := hv n (List.mem_cons_self n rest)
    have hvrest : ∀ x ∈ rest, x.Valid := fun x hx => hv x (List.mem_cons_of_mem n hx)
    have hsrest : rest.Pairwise netLE := (List.pairwise_cons.mp hs).2
    have hnle : ∀ x ∈ rest, netLE n x := (List.pairwise_cons.mp hs).1
    show coverage (n :: filterGo (some n) rest) = coverage (n :: rest)
    rw [coverage_cons, coverage_cons]
    have hrec := filterGo_some_coverage rest n hsrest hvrest hvn
      (fun x hx => netLE_addr_le n x (hnle x hx))
    have hiff := Set.ext_iff.mp hrec
    ext x
    simp only [Set.mem_union]
    have := hiff x
    simp only [Set.mem_union] at this
    tauto

theorem filterGo_strong : ∀ (l : List Net) (prev : Option Net),
    l.Pairwise netLE →
    (∀ m, prev = some m → ∀ n ∈ l, netLE m n) →
    (filterGo prev l).Pairwise (fun a b => netLE a b ∧ a.broadcast < b.broadcast) ∧
      (∀ m, prev = some m → ∀ k ∈ filterGo prev l,
        netLE m k ∧ m.broadcast < k.broadcast) := by
  intro l
  induction l with
  | nil =>
    intro prev _ _
    constructor
    · cases prev <;> exact List.Pairwise.nil
    · intro m hm k hk
      cases prev <;> simp [filterGo] at hk
  | cons n rest ih =>
    intro prev hs hprev
    have hsrest := (List.pairwise_cons.mp hs).2
    have hnle := (List.pairwise_cons.mp hs).1
    cases prev with
    | none =>
      obtain ⟨ih1, ih2⟩ := ih (some n) hsrest (fun m2 hm2 x hx => by
        injection hm2 with h
        subst h
        exact hnle x hx)
      constructor
      · show (n :: filterGo (some n) rest).Pairwise _
        exact List.pairwise_cons.mpr ⟨fun k hk => ih2 n rfl k hk, ih1⟩
      · intro m hm k hk
        simp at hm
    | some m =>
      have hml : ∀ x ∈ n :: rest, netLE m x := fun x hx => hprev m rfl x hx
      by_cases hbc : n.broadcast ≤ m.broadcast
      · have hred : filterGo (some m) (n :: rest) = filterGo (some m) rest := by
          show (if n.broadcast ≤ m.broadcast then _ else _) = _
          rw [if_pos hbc]
        obtain ⟨ih1, ih2⟩ := ih (some m) hsrest (fun m2 hm2 x hx => by
          injection hm2 with h
          subst h
          exact hml x (List.mem_cons_of_mem n hx))
        rw [hred]
        exact ⟨ih1, fun m2 hm2 k hk => ih2 m2 hm2 k hk⟩
      · have hred : filterGo (some m) (n :: rest) = n :: filterGo (some n) rest := by
          show (if n.broadcast ≤ m.broadcast then _ else _) = _
          rw [if_neg hbc]
        obtain ⟨ih1, ih2⟩ := ih (some n) hsrest (fun m2 hm2 x hx => by
          injection hm2 with h
          subst h
          exact hnle x hx)
        rw [hred]
        constructor
        · exact List.pairwise_cons.mpr ⟨fun k hk => ih2 n rfl k hk, ih1⟩
        · intro m2 hm2 k hk
          injection hm2 with h
          subst h
          rcases List.mem_cons.mp hk with hkn | hk
          · subst hkn
            exact ⟨hml k (List.mem_cons_self k rest), by omega⟩
          · have hnk := ih2 n rfl k hk
            refine ⟨IsTrans.trans (r := netLE) m n k
              (hml n (List.mem_cons_self n rest)) hnk.1, ?_⟩
            have := hnk.2
            omega

theorem netLT_of_le_bc (a b : Net) (h : netLE a b) (hbc : a.broadcast < b.broadcast) :
    netLT a b := by
  unfold netLE at h
  unfold netLT
  rcases h with h | ⟨heq, hpl⟩
  · exact Or.inl h
  · right
    refine ⟨heq, ?_⟩
    rcases Nat.lt_or_ge a.plen b.plen with h2 | h2
    · exact h2
    · exfalso
      have : a.plen = b.plen := by omega
      have : a = b := Net.ext heq this
      rw [this] at hbc
      omega

theorem sortNets_pairwise (l : List Net) : (sortNets l).Pairwise netLE := by
  have := List.sorted_insertionSort netLE l
  exact this

theorem sortNets_perm (l : List Net) : (sortNets l).Perm l :=
  List.perm_insertionSort netLE l

theorem collapseInternal_props (l : List Net) (hv : ∀ n ∈ l, n.Valid) :
    (∀ n ∈ collapseInternal l, n.Valid) ∧
    (collapseInternal l).Nodup ∧
    (collapseInternal l).Pairwise netLT ∧
    (∀ a ∈ collapseInternal l, ∀ b ∈ collapseInternal l, a ≠ b →
      Disjoint a.addrSet b.addrSet) ∧
    (∀ a ∈ collapseInternal l, ∀ b ∈ collapseInternal l, a.supernet = b.supernet → a = b) ∧
    coverage (collapseInternal l) = coverage l := by
  have hvrev : ∀ n ∈ l.reverse, n.Valid := fun n hn => hv n (List.mem_reverse.mp hn)
  obtain ⟨hinv, hcov⟩ := mergeLoop_spec l.reverse hvrev
  set values := (mergeLoop l.reverse []).map Prod.snd with hvalues
  have hvnodup : values.Nodup := dictinv_values_nodup _ hinv
  have hvsib := dictinv_values_sibfree _ hinv
  have hvvalid := dictinv_values_valid _ hinv
  have hcovl : coverage values = coverage l := by
    rw [hcov]
    exact coverage_perm _ _ (List.reverse_perm l)
  set sorted := sortNets values with hsorted_def
  have hsperm : sorted.Perm values := sortNets_perm values
  have hspw : sorted.Pairwise netLE := sortNets_pairwise values
  have hsnodup : sorted.Nodup := hsperm.nodup_iff.mpr hvnodup
  have hsvalid : ∀ n ∈ sorted, n.Valid := fun n hn => hvvalid n (hsperm.mem_iff.mp hn)
  have hssib : ∀ a ∈ sorted, ∀ b ∈ sorted, a.supernet = b.supernet → a = b :=
    fun a ha b hb h => hvsib a (hsperm.mem_iff.mp ha) b (hsperm.mem_iff.mp hb) h
  have hscov : coverage sorted = coverage l := by
    rw [coverage_perm _ _ hsperm, hcovl]
  have hLdef : collapseInternal l = filterGo none sorted := rfl
  have hsub : (filterGo none sorted).Sublist sorted := filterGo_sublist sorted none
  obtain ⟨hpw2, _⟩ := filterGo_strong sorted none hspw (fun m hm => by simp at hm)
  refine ⟨?_, ?_, ?_, ?_, ?_, ?_⟩
  · rw [hLdef]
    exact fun n hn => hsvalid n (hsub.subset hn)
  · rw [hLdef]
    exact hsnodup.sublist hsub
  · rw [hLdef]
    exact hpw2.imp_of_mem (fun ha hb hab => netLT_of_le_bc _ _ hab.1 hab.2)
  · rw [hLdef]
    have hpd : (filterGo none sorted).Pairwise
        (fun a b : Net => Disjoint a.addrSet b.addrSet) := by
      refine hpw2.imp_of_mem (fun ha hb hab => ?_)
      exact sorted_bc_disjoint _ _ (hsvalid _ (hsub.subset ha)) (hsvalid _ (hsub.subset hb))
        hab.1 hab.2
    exact fun a ha b hb hne =>
      hpd.forall (fun x y h => h.symm) ha hb hne
  · rw [hLdef]
    exact fun a ha b hb h => hssib a (hsub.subset ha) b (hsub.subset hb) h
  · rw [hLdef]
    rw [filterGo_none_coverage sorted hspw hsvalid, hscov]

theorem netCoverage_mem (x : Nat) (S : Finset Net) :
    x ∈ netCoverage S ↔ ∃ n ∈ S, x ∈ n.addrSet := Iff.rfl

theorem plen_lt_of_size_lt (b c : Net) (hb : b.plen ≤ 32) (hc : c.plen ≤ 32)
    (h : b.size < c.size) : c.plen < b.plen := by
  unfold Net.size at h
  have := (Nat.pow_lt_pow_iff_right (by omega : 1 < 2)).mp h
  omega

theorem double_size_le (b c : Net) (h : b.size < c.size) : 2 * b.size ≤ c.size := by
  have hdvd : b.size ∣ c.size := size_dvd_size b c (le_of_lt h)
  rcases hdvd with ⟨k, hk⟩
  have hb := b.size_pos
  have hk2 : 2 ≤ k := by
    rcases Nat.lt_or_ge k 2 with h2 | h2
    · interval_cases k <;> omega
    · exact h2
  calc 2 * b.size = b.size * 2 := by ring
  _ ≤ b.size * k := Nat.mul_le_mul_left _ hk2
  _ = c.size := hk.symm

theorem supernet_subset_of_strict (b c : Net) (hvb : b.Valid) (hvc : c.Valid)
    (hsub : b.addrSet ⊆ c.addrSet) (hlt : b.size < c.size) :
    b.supernet.addrSet ⊆ c.addrSet := by
  have h1 : 1 ≤ b.plen := by
    have := plen_lt_of_size_lt b c hvb.1 hvc.1 hlt
    omega
  have hpv : b.supernet.Valid := supernet_valid b hvb
  have hpsize : b.supernet.size = 2 * b.size := supernet_size b hvb.1 h1
  have hple : b.supernet.size ≤ c.size := by
    rw [hpsize]
    exact double_size_le b c hlt
  have hnd : ¬ Disjoint b.supernet.addrSet c.addrSet := by
    rw [Set.not_disjoint_iff]
    exact ⟨b.addr, subset_supernet b hvb b.addr_mem_addrSet, hsub b.addr_mem_addrSet⟩
  exact subset_of_inter_of_size_le b.supernet c hpv hvc hple hnd

theorem max_block_mem (S T : Finset Net) (b : Net)
    (hvS : ∀ n ∈ S, n.Valid) (hvT : ∀ n ∈ T, n.Valid)
    (hdS : PairDisj S) (hsS : SibFree S)
    (hb : b ∈ S)
    (hmaxT : ∀ x ∈ T, x.plen ≤ b.plen)
    (hmaxS : ∀ x ∈ S, x.plen ≤ b.plen)
    (hcov : netCoverage S = netCoverage T) : b ∈ T := by
  have hvb := hvS b hb
  have hmemS : b.addr ∈ netCoverage S := ⟨b, hb, b.addr_mem_addrSet⟩
  rw [hcov] at hmemS
  rcases hmemS with ⟨c, hc, hbc⟩
  have hvc := hvT c hc
  have hbsize : b.size ≤ c.size := size_antitone c b (hmaxT c hc)
  have hnd : ¬ Disjoint b.addrSet c.addrSet := by
    rw [Set.not_disjoint_iff]
    exact ⟨b.addr, b.addr_mem_addrSet, hbc⟩
  have hsub : b.addrSet ⊆ c.addrSet := subset_of_inter_of_size_le b c hvb hvc hbsize hnd
  by_cases hbceq : b = c
  · rw [hbceq]
    exact hc
  · exfalso
    have hlt : b.size < c.size := by
      rcases Nat.lt_or_ge b.size c.size with h2 | h2
      · exact h2
      · exact absurd (eq_of_subset_of_size_le b c hvb hvc hsub h2) hbceq
    have h1 : 1 ≤ b.plen := by
      have := plen_lt_of_size_lt b c hvb.1 hvc.1 hlt
      omega
    have hpsub : b.supernet.addrSet ⊆ c.addrSet :=
      supernet_subset_of_strict b c hvb hvc hsub hlt
    have hvsib : b.sibling.Valid := sibling_valid b hvb h1
    have hsibsub : b.sibling.addrSet ⊆ c.addrSet := by
      intro x hx
      apply hpsub
      have := subset_supernet b.sibling hvsib
      rw [sibling_supernet b hvb h1] at this
      exact this hx
    have hmemT : b.sibling.addr ∈ netCoverage T :=
      ⟨c, hc, hsibsub b.sibling.addr_mem_addrSet⟩
    rw [← hcov] at hmemT
    rcases hmemT with ⟨d, hd, hxd⟩
    have hvd := hvS d hd
    have hsibplen : b.sibling.plen = b.plen := sibling_plen b
    have hdsize : b.sibling.size ≤ d.size := by
      have := size_antitone d b (hmaxS d hd)
      have := sibling_size b
      omega
    have hnd2 : ¬ Disjoint b.sibling.addrSet d.addrSet := by
      rw [Set.not_disjoint_iff]
      exact ⟨b.sibling.addr, b.sibling.addr_mem_addrSet, hxd⟩
    have hsub2 : b.sibling.addrSet ⊆ d.addrSet :=
      subset_of_inter_of_size_le b.sibling d hvsib hvd hdsize hnd2
    by_cases hdsib : b.sibling = d
    · have hdS_sib : b.sibling ∈ S := by
        rw [hdsib]
        exact hd
      have := hsS b.sibling hdS_sib b hb (sibling_supernet b hvb h1)
      exact sibling_ne b hvb h1 this
    · have hlt2 : b.sibling.size < d.size := by
        rcases Nat.lt_or_ge b.sibling.size d.size with h2 | h2
        · exact h2
        · exact absurd (eq_of_subset_of_size_le b.sibling d hvsib hvd hsub2 h2) hdsib
      have hpsub2 : b.sibling.supernet.addrSet ⊆ d.addrSet :=
        supernet_subset_of_strict b.sibling d hvsib hvd hsub2 hlt2
      have hbd : b.addrSet ⊆ d.addrSet := by
        intro x hx
        apply hpsub2
        rw [sibling_supernet b hvb h1]
        exact subset_supernet b hvb hx
      have hbned : b ≠ d := by
        intro he
        have hds : d.size = b.size := by rw [he]
        have := sibling_size b
        omega
      have := hdS b hb d hd hbned
      rw [Set.disjoint_left] at this
      exact this b.addr_mem_addrSet (hbd b.addr_mem_addrSet)

theorem netCoverage_erase (S : Finset Net) (b : Net) (hb : b ∈ S) (hd : PairDisj S) :
    netCoverage (S.erase b) = netCoverage S \ b.addrSet := by
  ext x
  constructor
  · rintro ⟨n, hn, hx⟩
    have hnS := Finset.mem_of_mem_erase hn
    have hne := Finset.ne_of_mem_erase hn
    refine ⟨⟨n, hnS, hx⟩, ?_⟩
    intro hxb
    have hdisj := hd n hnS b hb hne
    rw [Set.disjoint_left] at hdisj
    exact hdisj hx hxb
  · rintro ⟨⟨n, hn, hx⟩, hxb⟩
    refine ⟨n, ?_, hx⟩
    apply Finset.mem_erase.mpr
    refine ⟨?_, hn⟩
    intro he
    rw [he] at hx
    exact hxb hx

theorem empty_of_netCoverage_empty (T : Finset Net) (h : netCoverage T = netCoverage ∅) :
    T = ∅ := by
  rw [Finset.eq_empty_iff_forall_not_mem]
  intro n hn
  have hmem : n.addr ∈ netCoverage T := ⟨n, hn, n.addr_mem_addrSet⟩
  rw [h] at hmem
  rcases hmem with ⟨m, hm, _⟩
  exact absurd hm (Finset.not_mem_empty m)

theorem cover_unique : ∀ (k : Nat) (S T : Finset Net), S.card ≤ k →
    (∀ n ∈ S, n.Valid) → (∀ n ∈ T, n.Valid) →
    PairDisj S → PairDisj T → SibFree S → SibFree T →
    netCoverage S = netCoverage T → S = T := by
  intro k
  induction k with
  | zero =>
    intro S T hcard _ _ _ _ _ _ hcov
    have hS : S = ∅ := Finset.card_eq_zero.mp (by omega)
    subst hS
    exact (empty_of_netCoverage_empty T hcov.symm).symm
  | succ k ih =>
    intro S T hcard hvS hvT hdS hdT hsS hsT hcov
    rcases S.eq_empty_or_nonempty with rfl | hne
    · exact (empty_of_netCoverage_empty T hcov.symm).symm
    · have hUnion : (S ∪ T).Nonempty := hne.mono Finset.subset_union_left
      obtain ⟨b, hbU, hbmax⟩ := Finset.exists_max_image (S ∪ T) Net.plen hUnion
      have hmaxS : ∀ x ∈ S, x.plen ≤ b.plen :=
        fun x hx => hbmax x (Finset.mem_union_left T hx)
      have hmaxT : ∀ x ∈ T, x.plen ≤ b.plen :=
        fun x hx => hbmax x (Finset.mem_union_right S hx)
      have hbboth : b ∈ S ∧ b ∈ T := by
        rcases Finset.mem_union.mp hbU with hb | hb
        · exact ⟨hb, max_block_mem S T b hvS hvT hdS hsS hb hmaxT hmaxS hcov⟩
        · exact ⟨max_block_mem T S b hvT hvS hdT hsT hb hmaxS hmaxT hcov.symm, hb⟩
      obtain ⟨hbS, hbT⟩ := hbboth
      have hcov' : netCoverage (S.erase b) = netCoverage (T.erase b) := by
        rw [netCoverage_erase S b hbS hdS, netCoverage_erase T b hbT hdT, hcov]
      have hcard' : (S.erase b).card ≤ k := by
        have h1 := Finset.card_erase_of_mem hbS
        have h2 := Finset.card_pos.mpr hne
        omega
      have hrec := ih (S.erase b) (T.erase b) hcard'
        (fun n hn => hvS n (Finset.mem_of_mem_erase hn))
        (fun n hn => hvT n (Finset.mem_of_mem_erase hn))
        (fun a ha c hc hne2 =>
          hdS a (Finset.mem_of_mem_erase ha) c (Finset.mem_of_mem_erase hc) hne2)
        (fun a ha c hc hne2 =>
          hdT a (Finset.mem_of_mem_erase ha) c (Finset.mem_of_mem_erase hc) hne2)
        (fun a ha c hc hsup =>
          hsS a (Finset.mem_of_mem_erase ha) c (Finset.mem_of_mem_erase hc) hsup)
        (fun a ha c hc hsup =>
          hsT a (Finset.mem_of_mem_erase ha) c (Finset.mem_of_mem_erase hc) hsup)
        hcov'
      have h1 : S = insert b (S.erase b) := (Finset.insert_erase hbS).symm
      have h2 : T = insert b (T.erase b) := (Finset.insert_erase hbT).symm
      rw [h1, h2, hrec]

theorem netCoverage_toFinset (l : List Net) : netCoverage l.toFinset = coverage l := by
  ext x
  constructor
  · rintro ⟨n, hn, hx⟩
    exact ⟨n, List.mem_toFinset.mp hn, hx⟩
  · rintro ⟨n, hn, hx⟩
    exact ⟨n, List.mem_toFinset.mpr hn, hx⟩

theorem netLE_of_netLT (a b : Net) (h : netLT a b) : netLE a b := by
  unfold netLT at h
  unfold netLE
  rcases h with h | ⟨heq, hpl⟩
  · exact Or.inl h
  · exact Or.inr ⟨heq, le_of_lt hpl⟩

theorem collapseInternal_canonical (l₁ l₂ : List Net)
    (hv₁ : ∀ n ∈ l₁, n.Valid) (hv₂ : ∀ n ∈ l₂, n.Valid)
    (hcov : coverage l₁ = coverage l₂) :
    collapseInternal l₁ = collapseInternal l₂ := by
  obtain ⟨hva, hnda, hpwa, hdja, hsba, hcva⟩ := collapseInternal_props l₁ hv₁
  obtain ⟨hvb, hndb, hpwb, hdjb, hsbb, hcvb⟩ := collapseInternal_props l₂ hv₂
  have hfin : (collapseInternal l₁).toFinset = (collapseInternal l₂).toFinset := by
    apply cover_unique (collapseInternal l₁).toFinset.card _ _ (le_refl _)
    · exact fun n hn => hva n (List.mem_toFinset.mp hn)
    · exact fun n hn => hvb n (List.mem_toFinset.mp hn)
    · exact fun a ha b hb hne =>
        hdja a (List.mem_toFinset.mp ha) b (List.mem_toFinset.mp hb) hne
    · exact fun a ha b hb hne =>
        hdjb a (List.mem_toFinset.mp ha) b (List.mem_toFinset.mp hb) hne
    · exact fun a ha b hb hs =>
        hsba a (List.mem_toFinset.mp ha) b (List.mem_toFinset.mp hb) hs
    · exact fun a ha b hb hs =>
        hsbb a (List.mem_toFinset.mp ha) b (List.mem_toFinset.mp hb) hs
    · rw [netCoverage_toFinset, netCoverage_toFinset, hcva, hcvb, hcov]
  have hperm : (collapseInternal l₁).Perm (collapseInternal l₂) :=
    List.perm_of_nodup_nodup_toFinset_eq hnda hndb hfin
  exact perm_pairwise_key_eq id _ _ hperm hpwa
    (hpwb.imp (fun h => netLE_of_netLT _ _ h))

theorem tzF_dvd : ∀ (fuel x : Nat), x ≤ fuel → x ≠ 0 → 2 ^ tzF fuel x ∣ x := by
  intro fuel
  induction fuel with
  | zero =>
    intro x hx hx0
    omega
  | succ fuel ih =>
    intro x hx hx0
    show 2 ^ (if x % 2 = 0 ∧ x ≠ 0 then tzF fuel (x / 2) + 1 else 0) ∣ x
    split
    · rename_i hcond
      have hx2 : x / 2 ≤ fuel := by omega
      have hx20 : x / 2 ≠ 0 := by omega
      rcases ih (x / 2) hx2 hx20 with ⟨c, hc⟩
      set T := 2 ^ tzF fuel (x / 2) with hT
      refine ⟨c, ?_⟩
      rw [Nat.pow_succ]
      calc x = 2 * (x / 2) := by omega
      _ = 2 * (T * c) := by rw [hc]
      _ = T * 2 * c := by ring
    · simpa using Nat.one_dvd x

theorem tz_dvd (x : Nat) (hx : x ≠ 0) : 2 ^ tz x ∣ x := tzF_dvd x x (le_refl x) hx

theorem ctz32_le (x : Nat) : ctz32 x ≤ 32 := by
  unfold ctz32
  split
  · exact le_refl _
  · exact min_le_left _ _

theorem ctz32_dvd (x : Nat) : 2 ^ ctz32 x ∣ x := by
  unfold ctz32
  split
  · rename_i h
    rw [h]
    exact Dvd.intro 0 rfl
  · rename_i h
    exact dvd_trans (Nat.pow_dvd_pow 2 (min_le_right _ _)) (tz_dvd x h)

theorem log2F_le : ∀ (fuel m : Nat), m ≤ fuel → 1 ≤ m → 2 ^ log2F fuel m ≤ m := by
  intro fuel
  induction fuel with
  | zero =>
    intro m hm h1
    omega
  | succ fuel ih =>
    intro m hm h1
    show 2 ^ (if 2 ≤ m then log2F fuel (m / 2) + 1 else 0) ≤ m
    split
    · rename_i h2
      have := ih (m / 2) (by omega) (by omega)
      rw [Nat.pow_succ]
      omega
    · rename_i h2
      have : m = 1 := by omega
      rw [this]
      rfl

theorem nlog2_le (m : Nat) (h1 : 1 ≤ m) : 2 ^ nlog2 m ≤ m := log2F_le m m (le_refl m) h1

theorem summarizeF_nil_of_gt (fuel first last : Nat) (h : ¬ first ≤ last) :
    summarizeF fuel first last = [] := by
  cases fuel with
  | zero => rfl
  | succ fuel =>
    show (if first ≤ last then _ else []) = []
    rw [if_neg h]

theorem summarizeF_succ (fuel first last : Nat) (hle : first ≤ last) :
    summarizeF (fuel + 1) first last =
      (if first + 2 ^ min (ctz32 first) (nlog2 (last - first + 1)) - 1 = 2 ^ 32 - 1
       then [(⟨first, 32 - min (ctz32 first) (nlog2 (last - first + 1))⟩ : Net)]
       else (⟨first, 32 - min (ctz32 first) (nlog2 (last - first + 1))⟩ : Net) ::
         summarizeF fuel (first + 2 ^ min (ctz32 first) (nlog2 (last - first + 1))) last) := by
  simp only [summarizeF]
  rw [if_pos hle]

theorem summarizeF_spec : ∀ (fuel first last : Nat),
    last + 1 - first ≤ fuel → first ≤ last → last < 2 ^ 32 →
    (∀ n ∈ summarizeF fuel first last, n.Valid) ∧
      coverage (summarizeF fuel first last) = Set.Icc first last := by
  intro fuel
  induction fuel with
  | zero =>
    intro first last hm hle hlt
    omega
  | succ fuel ih =>
    intro first last hm hle hlt
    have hcdvd : 2 ^ min (ctz32 first) (nlog2 (last - first + 1)) ∣ first :=
      dvd_trans (Nat.pow_dvd_pow 2 (min_le_left _ _)) (ctz32_dvd first)
    have hcle : 2 ^ min (ctz32 first) (nlog2 (last - first + 1)) ≤ last - first + 1 :=
      le_trans (Nat.pow_le_pow_right (by omega) (min_le_right _ _))
        (nlog2_le _ (by omega))
    have hnble : min (ctz32 first) (nlog2 (last - first + 1)) ≤ 32 :=
      le_trans (min_le_left _ _) (ctz32_le first)
    have hppos : 0 < 2 ^ min (ctz32 first) (nlog2 (last - first + 1)) :=
      Nat.two_pow_pos _
    have hnet_valid : (⟨first, 32 - min (ctz32 first) (nlog2 (last - first + 1))⟩ : Net).Valid := by
      refine ⟨?_, ?_, ?_⟩
      · show 32 - min (ctz32 first) (nlog2 (last - first + 1)) ≤ 32
        omega
      · show first < 2 ^ 32
        omega
      · show first % 2 ^ (32 - (32 - min (ctz32 first) (nlog2 (last - first + 1)))) = 0
        rw [show 32 - (32 - min (ctz32 first) (nlog2 (last - first + 1))) =
          min (ctz32 first) (nlog2 (last - first + 1)) by omega]
        exact Nat.dvd_iff_mod_eq_zero.mp hcdvd
    have hnet_set : (⟨first, 32 - min (ctz32 first) (nlog2 (last - first + 1))⟩ : Net).addrSet =
        Set.Ico first (first + 2 ^ min (ctz32 first) (nlog2 (last - first + 1))) := by
      unfold Net.addrSet Net.size
      rw [show 32 - (32 - min (ctz32 first) (nlog2 (last - first + 1))) =
        min (ctz32 first) (nlog2 (last - first + 1)) by omega]
    rw [summarizeF_succ fuel first last hle]
    by_cases hbreak : first + 2 ^ min (ctz32 first) (nlog2 (last - first + 1)) - 1 = 2 ^ 32 - 1
    · rw [if_pos hbreak]
      constructor
      · intro n hn
        rcases List.mem_singleton.mp hn with rfl
        exact hnet_valid
      · rw [coverage_cons, coverage_nil, Set.union_empty, hnet_set]
        ext x
        simp only [Set.mem_Ico, Set.mem_Icc]
        omega
    · rw [if_neg hbreak]
      by_cases hnext : first + 2 ^ min (ctz32 first) (nlog2 (last - first + 1)) ≤ last
      · obtain ⟨ihv, ihc⟩ := ih (first + 2 ^ min (ctz32 first) (nlog2 (last - first + 1)))
          last (by omega) hnext hlt
        constructor
        · intro n hn
          rcases List.mem_cons.mp hn with rfl | hn
          · exact hnet_valid
          · exact ihv n hn
        · rw [coverage_cons, ihc, hnet_set]
          ext x
          simp only [Set.mem_union, Set.mem_Ico, Set.mem_Icc]
          omega
      · have hend : first + 2 ^ min (ctz32 first) (nlog2 (last - first + 1)) = last + 1 := by
          omega
        rw [summarizeF_nil_of_gt fuel _ last (by omega)]
        constructor
        · intro n hn
          rcases List.mem_cons.mp hn with rfl | hn
          · exact hnet_valid
          · cases hn
        · rw [coverage_cons, coverage_nil, Set.union_empty, hnet_set]
          ext x
          simp only [Set.mem_Ico, Set.mem_Icc]
          omega

theorem findRangesGo_spec : ∀ (l : List Nat) (first last : Nat),
    first ≤ last →
    (∀ x ∈ l, last < x) →
    l.Pairwise (fun a b => a < b) →
    (∀ p ∈ findRangesGo first last l, p.1 ≤ p.2 ∧ (p.2 = last ∨ p.2 ∈ l)) ∧
      {x | ∃ p ∈ findRangesGo first last l, p.1 ≤ x ∧ x ≤ p.2} =
        Set.Icc first last ∪ {x | x ∈ l} := by
  intro l
  induction l with
  | nil =>
    intro first last hle _ _
    have hnil : findRangesGo first last [] = [(first, last)] := rfl
    rw [hnil]
    constructor
    · intro p hp
      rcases List.mem_singleton.mp hp with rfl
      exact ⟨hle, Or.inl rfl⟩
    · ext x
      simp only [Set.mem_setOf_eq, Set.mem_union, Set.mem_Icc, List.mem_singleton,
        List.not_mem_nil, or_false]
      constructor
      · rintro ⟨p, hp, hx⟩
        subst hp
        exact hx
      · intro hx
        exact ⟨(first, last), rfl, hx⟩
  | cons y rest ih =>
    intro first last hle hgt hpw
    have hy : last < y := hgt y (List.mem_cons_self y rest)
    have hyrest : ∀ x ∈ rest, y < x := (List.pairwise_cons.mp hpw).1
    have hpwrest := (List.pairwise_cons.mp hpw).2
    by_cases hcons : y = last + 1
    · have hred : findRangesGo first last (y :: rest) = findRangesGo first y rest := by
        show (if y = last + 1 then _ else _) = _
        rw [if_pos hcons]
      rw [hred]
      obtain ⟨ih1, ih2⟩ := ih first y (by omega) hyrest hpwrest
      constructor
      · intro p hp
        obtain ⟨hp1, hp2⟩ := ih1 p hp
        refine ⟨hp1, ?_⟩
        rcases hp2 with hp2 | hp2
        · exact Or.inr (hp2 ▸ List.mem_cons_self y rest)
        · exact Or.inr (List.mem_cons_of_mem y hp2)
      · rw [ih2]
        ext x
        simp only [Set.mem_union, Set.mem_Icc, Set.mem_setOf_eq, List.mem_cons]
        constructor
        · rintro (hx | hx)
          · rcases Nat.lt_or_ge x y with h2 | h2
            · exact Or.inl ⟨hx.1, by omega⟩
            · exact Or.inr (Or.inl (by omega))
          · exact Or.inr (Or.inr hx)
        · rintro (hx | hx | hx)
          · exact Or.inl ⟨hx.1, by omega⟩
          · exact Or.inl ⟨by omega, by omega⟩
          · exact Or.inr hx
    · have hred : findRangesGo first last (y :: rest) =
          (first, last) :: findRangesGo y y rest := by
        show (if y = last + 1 then _ else _) = _
        rw [if_neg hcons]
      rw [hred]
      obtain ⟨ih1, ih2⟩ := ih y y (le_refl y) hyrest hpwrest
      constructor
      · intro p hp
        rcases List.mem_cons.mp hp with rfl | hp
        · exact ⟨hle, Or.inl rfl⟩
        · obtain ⟨hp1, hp2⟩ := ih1 p hp
          refine ⟨hp1, ?_⟩
          rcases hp2 with hp2 | hp2
          · exact Or.inr (hp2 ▸ List.mem_cons_self y rest)
          · exact Or.inr (List.mem_cons_of_mem y hp2)
      · ext x
        have hx2 := Set.ext_iff.mp ih2 x
        simp only [Set.mem_setOf_eq, Set.mem_union, Set.mem_Icc, List.mem_cons] at hx2 ⊢
        constructor
        · rintro ⟨p, hp, hx⟩
          rcases hp with rfl | hp
          · exact Or.inl hx
          · rcases hx2.mp ⟨p, hp, hx⟩ with h2 | h2
            · exact Or.inr (Or.inl (by omega))
            · exact Or.inr (Or.inr h2)
        · rintro (hx | hx | hx)
          · exact ⟨(first, last), Or.inl rfl, hx⟩
          · rcases hx2.mpr (Or.inl (by omega)) with ⟨p, hp, hxp⟩
            exact ⟨p, Or.inr hp, hxp⟩
          · rcases hx2.mpr (Or.inr hx) with ⟨p, hp, hxp⟩
            exact ⟨p, Or.inr hp, hxp⟩

theorem findRanges_spec (l : List Nat) (hpw : l.Pairwise (fun a b => a < b)) :
    (∀ p ∈ findRanges l, p.1 ≤ p.2 ∧ p.2 ∈ l) ∧
      {x | ∃ p ∈ findRanges l, p.1 ≤ x ∧ x ≤ p.2} = {x | x ∈ l} := by
  cases l with
  | nil =>
    constructor
    · intro p hp
      cases hp
    · ext x
      simp [findRanges]
  | cons y rest =>
    have hyrest : ∀ x ∈ rest, y < x := (List.pairwise_cons.mp hpw).1
    have hpwrest := (List.pairwise_cons.mp hpw).2
    obtain ⟨h1, h2⟩ := findRangesGo_spec rest y y (le_refl y) hyrest hpwrest
    constructor
    · intro p hp
      obtain ⟨hp1, hp2⟩ := h1 p hp
      refine ⟨hp1, ?_⟩
      rcases hp2 with hp2 | hp2
      · exact hp2 ▸ List.mem_cons_self y rest
      · exact List.mem_cons_of_mem y hp2
    · show {x | ∃ p ∈ findRangesGo y y rest, p.1 ≤ x ∧ x ≤ p.2} = _
      rw [h2]
      ext x
      simp only [Set.mem_union, Set.mem_Icc, Set.mem_setOf_eq, List.mem_cons]
      constructor
      · rintro (hx | hx)
        · exact Or.inl (by omega)
        · exact Or.inr hx
      · rintro (hx | hx)
        · exact Or.inl (by omega)
        · exact Or.inr hx

theorem summarize_spec (first last : Nat) (hle : first ≤ last) (hlt : last < 2 ^ 32) :
    (∀ n ∈ summarize first last, n.Valid) ∧
      coverage (summarize first last) = Set.Icc first last :=
  summarizeF_spec (last + 1 - first) first last (le_refl _) hle hlt

theorem summaries_spec (P : List (Nat × Nat)) (h : ∀ p ∈ P, p.1 ≤ p.2 ∧ p.2 < 2 ^ 32) :
    (∀ n ∈ (P.map (fun p => summarize p.1 p.2)).flatten, n.Valid) ∧
      coverage ((P.map (fun p => summarize p.1 p.2)).flatten) =
        {x | ∃ p ∈ P, p.1 ≤ x ∧ x ≤ p.2} := by
  induction P with
  | nil =>
    constructor
    · intro n hn
      cases hn
    · rw [show ((([] : List (Nat × Nat)).map (fun p => summarize p.1 p.2)).flatten) =
        ([] : List Net) from rfl, coverage_nil]
      ext x
      simp
  | cons p t ih =>
    obtain ⟨hp1, hp2⟩ := h p (List.mem_cons_self p t)
    obtain ⟨ihv, ihc⟩ := ih (fun q hq => h q (List.mem_cons_of_mem p hq))
    obtain ⟨hsv, hsc⟩ := summarize_spec p.1 p.2 hp1 hp2
    have hflat : ((p :: t).map (fun p => summarize p.1 p.2)).flatten =
        summarize p.1 p.2 ++ (t.map (fun p => summarize p.1 p.2)).flatten := by
      rw [List.map_cons, List.flatten_cons]
    rw [hflat]
    constructor
    · intro n hn
      rcases List.mem_append.mp hn with hn | hn
      · exact hsv n hn
      · exact ihv n hn
    · rw [coverage_append, hsc, ihc]
      ext x
      simp only [Set.mem_union, Set.mem_Icc, Set.mem_setOf_eq, List.mem_cons]
      constructor
      · rintro (hx | ⟨q, hq, hxq⟩)
        · exact ⟨p, Or.inl rfl, hx⟩
        · exact ⟨q, Or.inr hq, hxq⟩
      · rintro ⟨q, hq | hq, hxq⟩
        · subst hq
          exact Or.inl hxq
        · exact Or.inr ⟨q, hq, hxq⟩

theorem addrSet_plen32 (n : Net) (h : n.plen = 32) : n.addrSet = {n.addr} := by
  unfold Net.addrSet Net.size
  rw [h]
  ext x
  simp only [Set.mem_Ico, Set.mem_singleton_iff]
  omega

theorem coverage_filter_split (l : List Net) (p : Net → Bool) :
    coverage l = coverage (l.filter p) ∪ coverage (l.filter (fun n => ! p n)) := by
  ext x
  constructor
  · rintro ⟨n, hn, hx⟩
    by_cases hp : p n
    · exact Or.inl ⟨n, List.mem_filter.mpr ⟨hn, hp⟩, hx⟩
    · exact Or.inr ⟨n, List.mem_filter.mpr ⟨hn, by simpa using hp⟩, hx⟩
  · rintro (⟨n, hn, hx⟩ | ⟨n, hn, hx⟩)
    · exact ⟨n, (List.mem_filter.mp hn).1, hx⟩
    · exact ⟨n, (List.mem_filter.mp hn).1, hx⟩

theorem pairwise_lt_of_le_nodup (l : List Nat)
    (hle : l.Pairwise (fun a b => a ≤ b)) (hnd : l.Nodup) :
    l.Pairwise (fun a b => a < b) := by
  have := List.Pairwise.and hle hnd
  exact this.imp (fun h => by omega)

theorem collapseAddresses_spec (l : List Net) (hv : ∀ n ∈ l, n.Valid) :
    ∃ args : List Net, collapseAddresses l = collapseInternal args ∧
      (∀ n ∈ args, n.Valid) ∧ coverage args = coverage l := by
  refine ⟨((findRanges (List.insertionSort (fun a b => a ≤ b)
      ((l.filter (fun n => decide (n.plen = 32))).map Net.addr).dedup)).map
      (fun p => summarize p.1 p.2)).flatten ++ l.filter (fun n => decide (¬ n.plen = 32)),
    rfl, ?_, ?_⟩
  all_goals {
    have hips_lt : ∀ x ∈ (l.filter (fun n => decide (n.plen = 32))).map Net.addr,
        x < 2 ^ 32 := by
      intro x hx
      rcases List.mem_map.mp hx with ⟨n, hn, rfl⟩
      exact (hv n (List.mem_filter.mp hn).1).2.1
    have hsorted_pw : (List.insertionSort (fun a b => a ≤ b)
        ((l.filter (fun n => decide (n.plen = 32))).map Net.addr).dedup).Pairwise
          (fun a b => a ≤ b) :=
      List.sorted_insertionSort _ _
    have hsorted_perm := List.perm_insertionSort (fun a b => a ≤ b)
      ((l.filter (fun n => decide (n.plen = 32))).map Net.addr).dedup
    have hsorted_nd : (List.insertionSort (fun a b => a ≤ b)
        ((l.filter (fun n => decide (n.plen = 32))).map Net.addr).dedup).Nodup :=
      hsorted_perm.nodup_iff.mpr (List.nodup_dedup _)
    have hsorted_lt := pairwise_lt_of_le_nodup _ hsorted_pw hsorted_nd
    have hsorted_mem : ∀ x, x ∈ (List.insertionSort (fun a b => a ≤ b)
        ((l.filter (fun n => decide (n.plen = 32))).map Net.addr).dedup) ↔
          x ∈ (l.filter (fun n => decide (n.plen = 32))).map Net.addr := by
      intro x
      rw [hsorted_perm.mem_iff, List.mem_dedup]
    obtain ⟨hfr1, hfr2⟩ := findRanges_spec _ hsorted_lt
    have hbounds : ∀ p ∈ findRanges (List.insertionSort (fun a b => a ≤ b)
        ((l.filter (fun n => decide (n.plen = 32))).map Net.addr).dedup),
          p.1 ≤ p.2 ∧ p.2 < 2 ^ 32 := by
      intro p hp
      obtain ⟨h1, h2⟩ := hfr1 p hp
      exact ⟨h1, hips_lt p.2 ((hsorted_mem p.2).mp h2)⟩
    obtain ⟨hsumv, hsumc⟩ := summaries_spec _ hbounds
    first
      | -- validity goal
        (intro n hn
         rcases List.mem_append.mp hn with hn | hn
         · exact hsumv n hn
         · exact hv n (List.mem_filter.mp hn).1)
      | -- coverage goal
        (rw [coverage_append, hsumc, hfr2]
         rw [coverage_filter_split l (fun n => decide (n.plen = 32))]
         have h32 : coverage (l.filter (fun n => decide (n.plen = 32))) =
             {x | x ∈ (l.filter (fun n => decide (n.plen = 32))).map Net.addr} := by
           ext x
           constructor
           · rintro ⟨n, hn, hx⟩
             have hp := of_decide_eq_true (List.mem_filter.mp hn).2
             rw [addrSet_plen32 n hp] at hx
             rw [Set.mem_singleton_iff] at hx
             subst hx
             exact List.mem_map_of_mem Net.addr hn
           · rintro hx
             rcases List.mem_map.mp hx with ⟨n, hn, rfl⟩
             have hp := of_decide_eq_true (List.mem_filter.mp hn).2
             exact ⟨n, hn, by rw [addrSet_plen32 n hp]; exact rfl⟩
         rw [h32]
         have hmm : {x | x ∈ (List.insertionSort (fun a b => a ≤ b)
             ((l.filter (fun n => decide (n.plen = 32))).map Net.addr).dedup)} =
               {x : Nat | x ∈ (l.filter (fun n => decide (n.plen = 32))).map Net.addr} := by
           ext x
           exact hsorted_mem x
         rw [hmm]
         have hnotp : (fun n : Net => ! decide (n.plen = 32)) =
             (fun n : Net => decide (¬ n.plen = 32)) := by
           funext n
           by_cases h : n.plen = 32 <;> simp [h]
         rw [← hnotp])
  }

theorem parseOctet_le (l : List Char) (v : Nat) (h : parseOctet l = some v) : v ≤ 255 := by
  unfold parseOctet at h
  split_ifs at h with h1 h2 h3 h4
  injection h with hv
  omega

theorem parsePlen_le (l : List Char) (v : Nat) (h : parsePlen l = some v) : v ≤ 32 := by
  unfold parsePlen at h
  split_ifs at h with h1 h2 h3
  injection h with hv
  omega

theorem parseQuad_lt (a b c d : List Char) (v : Nat)
    (h : (do
        let va ← parseOctet a
        let vb ← parseOctet b
        let vc ← parseOctet c
        let vd ← parseOctet d
        pure (((va * 256 + vb) * 256 + vc) * 256 + vd)) = some v) : v < 2 ^ 32 := by
  rcases ha : parseOctet a with _ | va
  · simp [ha] at h
  rcases hb : parseOctet b with _ | vb
  · simp [ha, hb] at h
  rcases hc : parseOctet c with _ | vc
  · simp [ha, hb, hc] at h
  rcases hd : parseOctet d with _ | vd
  · simp [ha, hb, hc, hd] at h
  simp only [ha, hb, hc, hd, Option.some_bind] at h
  have hva := parseOctet_le a va ha
  have hvb := parseOctet_le b vb hb
  have hvc := parseOctet_le c vc hc
  have hvd := parseOctet_le d vd hd
  have hv : ((va * 256 + vb) * 256 + vc) * 256 + vd = v := by
    injection h
  omega

theorem parseIPv4Addr_lt (l : List Char) (v : Nat) (h : parseIPv4Addr l = some v) :
    v < 2 ^ 32 := by
  unfold parseIPv4Addr at h
  split at h
  · exact parseQuad_lt _ _ _ _ v h
  · cases h

theorem parsePair_valid (a p : List Char) (n : Net)
    (h : (do
        let addr ← parseIPv4Addr a
        let pl ← parsePlen p
        if addr % 2 ^ (32 - pl) = 0 then some (⟨addr, pl⟩ : Net) else none) = some n) :
    n.Valid := by
  rcases ha : parseIPv4Addr a with _ | addr
  · rw [ha] at h
    exact Option.noConfusion h
  rw [ha] at h
  have h2 : (parsePlen p).bind (fun pl =>
      if addr % 2 ^ (32 - pl) = 0 then some (⟨addr, pl⟩ : Net) else none) = some n := h
  rcases hp : parsePlen p with _ | pl
  · rw [hp] at h2
    exact Option.noConfusion h2
  rw [hp] at h2
  have h3 : (if addr % 2 ^ (32 - pl) = 0 then some (⟨addr, pl⟩ : Net) else none) = some n := h2
  split at h3
  · rename_i hmod
    injection h3 with hn
    rw [← hn]
    refine ⟨?_, ?_, ?_⟩
    · show pl ≤ 32
      exact parsePlen_le p pl hp
    · show addr < 2 ^ 32
      exact parseIPv4Addr_lt a addr ha
    · show addr % 2 ^ (32 - pl) = 0
      exact hmod
  · cases h3

theorem parseCidr_valid (s : String) (n : Net) (h : parseCidr s = some n) : n.Valid := by
  unfold parseCidr at h
  split at h
  · rcases Option.map_eq_some'.mp h with ⟨addr, haddr, hn⟩
    rw [← hn]
    refine ⟨?_, ?_, ?_⟩
    · show (32 : Nat) ≤ 32
      exact le_refl _
    · show addr < 2 ^ 32
      exact parseIPv4Addr_lt _ _ haddr
    · show addr % 2 ^ (32 - 32) = 0
      omega
  · exact parsePair_valid _ _ n h
  · cases h

theorem mapM_parse_isSome (l : List String) (nets : List Net)
    (h : l.mapM parseCidr = some nets) : ∀ s ∈ l, (parseCidr s).isSome = true := by
  intro s hs
  by_contra hns
  have hnone : parseCidr s = none := by
    rcases hp : parseCidr s with _ | m
    · rfl
    · exact absurd (by rw [hp]; rfl) hns
  rw [mapM_parse_none l s hs hnone] at h
  cases h

theorem mapM_parse_eq_map_aux (l : List String)
    (h : ∀ s ∈ l, (parseCidr s).isSome = true) :
    ∀ acc : List Net,
      List.mapM.loop parseCidr l acc = some (acc.reverse ++ l.map parseKey) := by
  induction l with
  | nil =>
    intro acc
    simp [List.mapM.loop]
  | cons a t ih =>
    intro acc
    rcases Option.isSome_iff_exists.mp (h a (List.mem_cons_self a t)) with ⟨n, hn⟩
    have hkey : parseKey a = n := by
      unfold parseKey
      rw [hn]
      rfl
    have iht := ih (fun s hs => h s (List.mem_cons_of_mem a hs)) (n :: acc)
    simp only [List.mapM.loop, hn]
    show List.mapM.loop parseCidr t (n :: acc) = some (acc.reverse ++ List.map parseKey (a :: t))
    rw [iht]
    simp [hkey]

theorem mapM_parse_eq_map (l : List String) (h : ∀ s ∈ l, (parseCidr s).isSome = true) :
    l.mapM parseCidr = some (l.map parseKey) := by
  have := mapM_parse_eq_map_aux l h []
  simpa using this

theorem collapseAddresses_canonical (l₁ l₂ : List Net)
    (hv₁ : ∀ n ∈ l₁, n.Valid) (hv₂ : ∀ n ∈ l₂, n.Valid)
    (hcov : coverage l₁ = coverage l₂) :
    collapseAddresses l₁ = collapseAddresses l₂ := by
  obtain ⟨a₁, he₁, hva₁, hca₁⟩ := collapseAddresses_spec l₁ hv₁
  obtain ⟨a₂, he₂, hva₂, hca₂⟩ := collapseAddresses_spec l₂ hv₂
  rw [he₁, he₂]
  exact collapseInternal_canonical a₁ a₂ hva₁ hva₂ (by rw [hca₁, hca₂, hcov])

theorem collapseAddresses_pairwise (l : List Net) (hv : ∀ n ∈ l, n.Valid) :
    (collapseAddresses l).Pairwise netLT := by
  obtain ⟨a, he, hva, _⟩ := collapseAddresses_spec l hv
  rw [he]
  exact (collapseInternal_props a hva).2.2.1

theorem sortNets_of_sorted (l : List Net) (h : l.Pairwise netLT) : sortNets l = l :=
  (perm_pairwise_key_eq id l (sortNets l) (sortNets_perm l).symm h
    (sortNets_pairwise l)).symm

theorem collapseCidrs_eq (l : List String) (h : ∀ s ∈ l, (parseCidr s).isSome = true) :
    collapseCidrs l =
      some ((sortNets (collapseAddresses (l.map parseKey))).map netToString) := by
  unfold collapseCidrs
  rw [mapM_parse_eq_map l h]
  rfl

/-- C6: for every list of valid CIDR strings, collapsing any permutation of
the list (lines 49–51 of the script: parse, `collapse_addresses`, sort by
(base address, prefix length)) yields the identical output sequence, and that
output is strictly sorted by (base address, prefix length) ascending. -/
theorem c6_collapse_order_independent (l₁ l₂ : List String) (nets₁ : List Net)
    (hparse : l₁.mapM parseCidr = some nets₁) (hperm : l₁.Perm l₂) :
    collapseCidrs l₁ = collapseCidrs l₂ ∧
    ∃ outNets : List Net, collapseCidrs l₁ = some (outNets.map netToString) ∧
      outNets.Pairwise netLT := by
  have hsome₁ := mapM_parse_isSome l₁ nets₁ hparse
  have hsome₂ : ∀ s ∈ l₂, (parseCidr s).isSome = true :=
    fun s hs => hsome₁ s (hperm.mem_iff.mpr hs)
  have hv₁ : ∀ n ∈ l₁.map parseKey, n.Valid := by
    intro n hn
    rcases List.mem_map.mp hn with ⟨s, hs, rfl⟩
    rcases Option.isSome_iff_exists.mp (hsome₁ s hs) with ⟨m, hm⟩
    have hk : parseKey s = m := by
      unfold parseKey
      rw [hm]
      rfl
    rw [hk]
    exact parseCidr_valid s m hm
  have hv₂ : ∀ n ∈ l₂.map parseKey, n.Valid := by
    intro n hn
    rcases List.mem_map.mp hn with ⟨s, hs, rfl⟩
    rcases Option.isSome_iff_exists.mp (hsome₂ s hs) with ⟨m, hm⟩
    have hk : parseKey s = m := by
      unfold parseKey
      rw [hm]
      rfl
    rw [hk]
    exact parseCidr_valid s m hm
  have hpk : (l₁.map parseKey).Perm (l₂.map parseKey) := hperm.map parseKey
  have hcov : coverage (l₁.map parseKey) = coverage (l₂.map parseKey) :=
    coverage_perm _ _ hpk
  have hca := collapseAddresses_canonical _ _ hv₁ hv₂ hcov
  have hpw₁ := collapseAddresses_pairwise (l₁.map parseKey) hv₁
  constructor
  · rw [collapseCidrs_eq l₁ hsome₁, collapseCidrs_eq l₂ hsome₂, hca]
  · refine ⟨collapseAddresses (l₁.map parseKey), ?_, hpw₁⟩
    rw [collapseCidrs_eq l₁ hsome₁, sortNets_of_sorted _ hpw₁]

/-- Witness for C6: two sibling /25 blocks fed in both orders; both runs
collapse to the same single /24. -/
theorem c6_collapse_order_independent_witness :
    ((["10.0.0.0/25", "10.0.0.128/25"] : List String).mapM parseCidr =
        some [⟨10 * 2 ^ 24, 25⟩, ⟨10 * 2 ^ 24 + 128, 25⟩] ∧
      (["10.0.0.0/25", "10.0.0.128/25"] : List String).Perm
        ["10.0.0.128/25", "10.0.0.0/25"]) ∧
    (collapseCidrs ["10.0.0.0/25", "10.0.0.128/25"] =
        collapseCidrs ["10.0.0.128/25", "10.0.0.0/25"] ∧
      ∃ outNets : List Net,
        collapseCidrs ["10.0.0.0/25", "10.0.0.128/25"] =
          some (outNets.map netToString) ∧ outNets.Pairwise netLT) :=
  ⟨⟨by decide, by decide⟩,
    c6_collapse_order_independent ["10.0.0.0/25", "10.0.0.128/25"]
      ["10.0.0.128/25", "10.0.0.0/25"] [⟨10 * 2 ^ 24, 25⟩, ⟨10 * 2 ^ 24 + 128, 25⟩]
      (by decide) (by decide)⟩
